import Mathlib

/-!
Verification development for a longest-chain blockchain node
(files block.py, transaction.py, node.py, utils.py).

Modelling conventions:
* Byte strings are `List Nat`.
* The SHA-256 primitive is an opaque external collaborator, so every
  definition is parametrised over `sha : Bytes → Bytes`; likewise the
  Ed25519 verifier `ver : message → signature → public key → Bool` and the
  signer `sg : message → signature`.
* Python exceptions (IndexError from out-of-range list access, ValueError
  from list.index / list.remove, KeyError from dict lookup) are modelled
  with `Option` / explicit result constructors carrying the state at the
  raise point; `while` loops are modelled with an explicit fuel parameter,
  and exhausted fuel (a diverging loop) is a distinct outcome.
* Python object identity on Transaction values is modelled by structural
  equality (the objects are immutable records of byte strings).
-/

namespace LCP

abbrev Bytes := List Nat

/-- GENESIS_BLOCK_PREV = BlockHash(b"Genesis") from utils.py. -/
def GENESIS_BLOCK_PREV : Bytes := [71, 101, 110, 101, 115, 105, 115]

/-- BLOCK_SIZE = 10 from utils.py. -/
def BLOCK_SIZE : Nat := 10

/-- LENGTH_RANDOM_SIGNATURE = 64 from node.py (length of a coinbase signature;
the concrete random payload is supplied by callers of the mining operation). -/
def LENGTH_RANDOM_SIGNATURE : Nat := 64

/-- Transaction from transaction.py: output public key, optional input txid,
signature.  `input = none` is the coinbase / money-creation case. -/
structure Transaction where
  output : Bytes
  input : Option Bytes
  signature : Bytes
deriving DecidableEq, Repr

/-- Transaction.get_message: `input + output if input else output`.
Python truthiness: both `None` and the empty byte string are falsy, so an
empty-bytes input yields just the output, exactly like an absent input. -/
def Transaction.get_message (input : Option Bytes) (output : Bytes) : Bytes :=
  match input with
  | none => output
  | some i => if i = [] then output else i ++ output

/-- Transaction.get_txid: sha256 over output, then signature, then the input
when it is not None (feeding an empty input adds no bytes, exactly as in the
Python incremental hash). -/
def Transaction.get_txid (sha : Bytes → Bytes) (tx : Transaction) : Bytes :=
  sha (tx.output ++ tx.signature ++ (match tx.input with | none => [] | some i => i))

/-- Block from block.py: list of transactions plus previous block hash. -/
structure Block where
  txs : List Transaction
  prev_block_hash : Bytes
deriving DecidableEq, Repr

def Block.get_transactions (b : Block) : List Transaction := b.txs

def Block.get_prev_block_hash (b : Block) : Bytes := b.prev_block_hash

/-- One level of the Merkle tree: `for i in range(0, len(txs), 2)` combining
`txs[i] + txs[i+1]`.  When the level has odd length the final iteration
accesses `txs[i+1]` out of range (IndexError), modelled as `none`. -/
def combineLevel (sha : Bytes → Bytes) : List Bytes → Option (List Bytes)
  | [] => some []
  | [_] => none
  | x :: y :: rest => (combineLevel sha rest).map (fun hs => sha (x ++ y) :: hs)

/-- The `while len(txs) > 1` loop of Block.calculate_merkle_root, with fuel.
Each successful level at least halves the list, so `fuel = length + 1`
always suffices; fuel exhaustion is returned as `none` alongside the
IndexError case (neither produces a root). -/
def merkleLoop (sha : Bytes → Bytes) : Nat → List Bytes → Option Bytes
  | 0, _ => none
  | fuel + 1, txs =>
    if txs.length > 1 then
      match combineLevel sha txs with
      | none => none
      | some level => merkleLoop sha fuel level
    else txs.head?

/-- Block.calculate_merkle_root: empty list gives the empty byte string;
an odd bottom level is padded once with a single empty leaf; then levels are
combined until one hash remains.  `none` models the IndexError raised when
an inner level has odd length. -/
def calculate_merkle_root (sha : Bytes → Bytes) (txs : List Bytes) : Option Bytes :=
  if txs = [] then some []
  else
    let txs := if txs.length % 2 = 1 then txs ++ [[]] else txs
    merkleLoop sha (txs.length + 1) txs

/-- Block.get_block_hash: sha256 of prev_block_hash followed by the Merkle
root of the transaction ids.  `none` models the IndexError propagating out
of the Merkle computation. -/
def Block.get_block_hash (sha : Bytes → Bytes) (b : Block) : Option Bytes :=
  (calculate_merkle_root sha (b.txs.map (Transaction.get_txid sha))).map
    (fun root => sha (b.prev_block_hash ++ root))

/-- The transaction index self._txs_map (a Python dict from txid to
transaction).  Only insertion (overwriting) and lookup are used, so it is
modelled as an association list with newest binding first. -/
abbrev TMap := List (Bytes × Transaction)

def mapInsert (m : TMap) (k : Bytes) (v : Transaction) : TMap := (k, v) :: m

def mapLookup (m : TMap) (k : Bytes) : Option Transaction :=
  (m.find? (fun p => p.1 = k)).map (fun p => p.2)

/-- The mutable state of a Node (node.py __init__).  The private key is kept
abstract through the signing parameter of the operations that use it, and
the set of connected peers is modelled by its cardinality: a peer call
never mutates the local state of the calling node (an echoed
add_transaction_to_mempool is rejected by the duplicate-input check, and the
propagation loop of notify_of_block only ever addresses the node itself),
so only the fan-out count of a peer set is observable locally. -/
structure NodeState where
  public_key : Bytes
  mempool : List Transaction
  blockchain : List Block
  utxo : List Transaction
  txs_map : TMap
  connections : Nat
deriving DecidableEq, Repr

/-- A fresh node (node.py __init__): empty mempool, chain, utxo, index, and
no connections. -/
def initNode (pk : Bytes) : NodeState :=
  { public_key := pk, mempool := [], blockchain := [], utxo := [],
    txs_map := [], connections := 0 }

/-- Node._get_tx_with_id_from_utxo: the first utxo entry whose txid is the
given id; the ValueError raised by list.index when no entry matches is
modelled as `none`. -/
def get_tx_with_id_from_utxo (sha : Bytes → Bytes) (txId : Bytes)
    (utxo : List Transaction) : Option Transaction :=
  utxo.find? (fun tx => Transaction.get_txid sha tx = txId)

/-- Node.get_latest_hash: hash of the last block, or GENESIS_BLOCK_PREV for
an empty chain.  `none` models the IndexError escaping from get_block_hash
on an unhashable last block. -/
def get_latest_hash (sha : Bytes → Bytes) (chain : List Block) : Option Bytes :=
  match chain.getLast? with
  | none => some GENESIS_BLOCK_PREV
  | some b => b.get_block_hash sha

/-- The hashes of all blocks of a chain, as computed by
`map(lambda b: b.get_block_hash(), chain)`; `none` when some block's hash
computation raises. -/
def chainHashes (sha : Bytes → Bytes) : List Block → Option (List Bytes)
  | [] => some []
  | b :: rest =>
    match b.get_block_hash sha, chainHashes sha rest with
    | some h, some hs => some (h :: hs)
    | _, _ => none

/-- Node.get_block restricted to a given chain whose hash list `hs` has
already been computed: the block at the first index whose hash equals `h`;
`none` models the ValueError for an unknown hash. -/
def getBlockInChain (chain : List Block) (hs : List Bytes) (h : Bytes) :
    Option Block :=
  ((hs.zip chain).find? (fun p => p.1 = h)).map (fun p => p.2)

/-- Node.get_block of a whole node or peer: recompute the chain's hashes and
look the requested hash up.  `none` conflates the ValueError for an unknown
hash with a hash-computation error inside the peer. -/
def get_block (sha : Bytes → Bytes) (chain : List Block) (h : Bytes) :
    Option Block :=
  match chainHashes sha chain with
  | none => none
  | some hs => getBlockInChain chain hs h

/-- Node.add_transaction_to_mempool.  Returns the state after the call, the
boolean result, and the number of peers the transaction was forwarded to
(the loop over self.get_connections()).  The checks, in source order:
falsy input (None or empty), unknown utxo input, conflicting mempool input,
then signature verification against the source entry's output key. -/
def add_transaction_to_mempool (sha : Bytes → Bytes)
    (ver : Bytes → Bytes → Bytes → Bool) (st : NodeState)
    (tx : Transaction) : NodeState × Bool × Nat :=
  let utxo_ids := st.utxo.map (Transaction.get_txid sha)
  let mempool_input_ids := st.mempool.map Transaction.input
  match tx.input with
  | none => (st, false, 0)
  | some i =>
    if i = [] then (st, false, 0)
    else if i ∉ utxo_ids then (st, false, 0)
    else if some i ∈ mempool_input_ids then (st, false, 0)
    else
      match get_tx_with_id_from_utxo sha i st.utxo with
      | none => (st, false, 0)  -- unreachable: guarded by the utxo_ids test
      | some src =>
        if ver (Transaction.get_message tx.input tx.output) tx.signature
            src.output then
          ({ st with mempool := st.mempool ++ [tx] }, true, st.connections)
        else (st, false, 0)

/-- Node._update_utxo for a single transaction: consume the source entry
when the input is present (the ValueError from a missing source is `none`),
append the transaction, and record it in the transaction index. -/
def update_utxo (sha : Bytes → Bytes) (tx : Transaction)
    (utxo : List Transaction) (m : TMap) :
    Option (List Transaction × TMap) :=
  match tx.input with
  | none => some (utxo ++ [tx], mapInsert m (Transaction.get_txid sha tx) tx)
  | some i =>
    match get_tx_with_id_from_utxo sha i utxo with
    | none => none
    | some src =>
      some ((utxo.erase src) ++ [tx],
        mapInsert m (Transaction.get_txid sha tx) tx)

/-- Sequential application of _update_utxo over a list of transactions.
Returns the utxo and transaction index reached, plus a flag recording a
raise: the mutations made before the raising call persist, as in Python. -/
def applyTxs (sha : Bytes → Bytes) : List Transaction → List Transaction →
    TMap → List Transaction × TMap × Bool
  | [], utxo, m => (utxo, m, false)
  | tx :: rest, utxo, m =>
    match update_utxo sha tx utxo m with
    | none => (utxo, m, true)
    | some (utxo₁, m₁) => applyTxs sha rest utxo₁ m₁

/-- Outcome of Node.mine_block: either the new state, the fresh block hash
and the number of notified peers, or the state at the point where an
exception (IndexError from hashing, ValueError from the utxo update)
escaped. -/
inductive MineRes where
  | ok (st : NodeState) (h : Bytes) (notified : Nat) : MineRes
  | raisedAt (st : NodeState) : MineRes
deriving Repr, DecidableEq

/-- Node.mine_block, parametrised by the random coinbase signature produced
by token_bytes.  Source order: _create_money appends the coinbase to the
mempool; the first BLOCK_SIZE entries are sliced off; the block is formed on
the current tip and hashed (a raise here leaves the mempool already
sliced); the block is appended; each included transaction updates the utxo
(a raise here leaves earlier updates in place); finally every connection is
notified.  The returned state is the local state at the fan-out point. -/
def mine_block (sha : Bytes → Bytes) (coinbaseSig : Bytes)
    (st : NodeState) : MineRes :=
  let coin : Transaction :=
    { output := st.public_key, input := none, signature := coinbaseSig }
  let pool := st.mempool ++ [coin]
  let limit := pool.take BLOCK_SIZE
  let st₁ : NodeState := { st with mempool := pool.drop BLOCK_SIZE }
  match get_latest_hash sha st₁.blockchain with
  | none => .raisedAt st₁
  | some prev =>
    let block : Block := { txs := limit, prev_block_hash := prev }
    match block.get_block_hash sha with
    | none => .raisedAt st₁
    | some bh =>
      let st₂ : NodeState := { st₁ with blockchain := st₁.blockchain ++ [block] }
      match applyTxs sha limit st₂.utxo st₂.txs_map with
      | (u, m, true) => .raisedAt { st₂ with utxo := u, txs_map := m }
      | (u, m, false) =>
        (.ok { st₂ with utxo := u, txs_map := m } bh st.connections)

/-- One step of the duplicate-input scan of Node._verify_block followed by
the per-transaction checks: coinbases (input None) skip verification, and a
transfer whose input has no utxo entry raises (the ValueError from
list.index inside _get_tx_with_id_from_utxo is not caught), modelled as
`none`.  The `utxo is None` default of the source is dead in every call
site and is not modelled. -/
def verifyBlockGo (sha : Bytes → Bytes) (ver : Bytes → Bytes → Bytes → Bool)
    (utxo : List Transaction) :
    List Transaction → List (Option Bytes) → Option Bool
  | [], _ => some true
  | tx :: rest, seen =>
    if tx.input ∈ seen then some false
    else
      match tx.input with
      | none => verifyBlockGo sha ver utxo rest (seen ++ [tx.input])
      | some i =>
        match get_tx_with_id_from_utxo sha i utxo with
        | none => none
        | some src =>
          if ver (Transaction.get_message tx.input tx.output) tx.signature
              src.output then
            verifyBlockGo sha ver utxo rest (seen ++ [tx.input])
          else some false

/-- Node._verify_block as a function of a block and a utxo snapshot. -/
def verify_block (sha : Bytes → Bytes) (ver : Bytes → Bytes → Bytes → Bool)
    (block : Block) (utxo : List Transaction) : Option Bool :=
  verifyBlockGo sha ver utxo block.txs []

/-- Result of the candidate-branch walk (node.py lines 112-118): the
collected branch in tip-first order together with the hash the walk stopped
at, a caught ValueError from the sender (silent abort), or fuel exhaustion
(the Python loop diverging on a cyclic or endless hash sequence). -/
inductive WalkRes where
  | spin : WalkRes
  | failed : WalkRes
  | stop (branch : List Block) (stopHash : Bytes) : WalkRes
deriving Repr, DecidableEq

/-- The `while not self._is_known_block(curr_hash) and curr_hash !=
GENESIS_BLOCK_PREV` loop: fetch the current hash from the sender, collect
the block, and continue from its prev hash.  `hs` is the local chain's hash
list (the chain is not mutated during the walk, so _is_known_block is
membership in this fixed list). -/
def walkNewBranch (fetch : Bytes → Option Block) (hs : List Bytes) :
    Nat → Bytes → WalkRes
  | 0, _ => .spin
  | fuel + 1, curr =>
    if curr ∈ hs ∨ curr = GENESIS_BLOCK_PREV then .stop [] curr
    else
      match fetch curr with
      | none => .failed
      | some b =>
        match walkNewBranch fetch hs fuel b.prev_block_hash with
        | .stop br s => .stop (b :: br) s
        | r => r

/-- Result of the local walk back to the split point (node.py lines
123-126): the old branch in tip-first order, an uncaught ValueError from
get_block on a hash missing from the local chain, or fuel exhaustion. -/
inductive OldWalkRes where
  | spinO : OldWalkRes
  | raisedO : OldWalkRes
  | stopO (branch : List Block) : OldWalkRes
deriving Repr, DecidableEq

/-- The `while temp_hash != curr_hash` loop: walk the local chain backward
by prev pointers, collecting blocks, until the stop hash is reached. -/
def walkOldBranch (chain : List Block) (hs : List Bytes) :
    Nat → Bytes → Bytes → OldWalkRes
  | 0, _, _ => .spinO
  | fuel + 1, temp, target =>
    if temp = target then .stopO []
    else
      match getBlockInChain chain hs temp with
      | none => .raisedO
      | some b =>
        match walkOldBranch chain hs fuel b.prev_block_hash target with
        | .stopO old => .stopO (b :: old)
        | r => r

/-- The inner loop of Node._update_utxo_to_branch over one block's
transactions: look each committed transaction up in the index, resurrect
its consumed source (appended before the removal, as in the source), then
remove the transaction itself.  `none` models the KeyError from a missing
index entry or the ValueError from list.remove. -/
def revertBlockTxs (sha : Bytes → Bytes) (m : TMap) :
    List Transaction → List Transaction → Option (List Transaction)
  | [], utxo => some utxo
  | tx :: rest, utxo =>
    match mapLookup m (Transaction.get_txid sha tx) with
    | none => none
    | some replace_tx =>
      let utxo₁? : Option (List Transaction) :=
        match replace_tx.input with
        | none => some utxo
        | some i => (mapLookup m i).map (fun src => utxo ++ [src])
      match utxo₁? with
      | none => none
      | some utxo₁ =>
        if replace_tx ∈ utxo₁ then
          revertBlockTxs sha m rest (utxo₁.erase replace_tx)
        else none

/-- Node._update_utxo_to_branch: the blocks are supplied in the iteration
order of the source, i.e. the reversed old branch (oldest first). -/
def revertBranch (sha : Bytes → Bytes) (m : TMap) :
    List Block → List Transaction → Option (List Transaction)
  | [], utxo => some utxo
  | b :: rest, utxo =>
    match revertBlockTxs sha m b.txs utxo with
    | none => none
    | some u => revertBranch sha m rest u

/-- Node._check_new_branch_validity: the blocks are supplied in the
iteration order of the source, i.e. the reversed new branch (oldest
first).  Returns the count of validated blocks, the utxo and transaction
index reached, and whether an exception escaped (from _verify_block or
_update_utxo); index mutations made before a raise persist. -/
def checkBranch (sha : Bytes → Bytes) (ver : Bytes → Bytes → Bytes → Bool) :
    List Block → List Transaction → TMap → Nat × List Transaction × TMap × Bool
  | [], utxo, m => (0, utxo, m, false)
  | b :: rest, utxo, m =>
    match verify_block sha ver b utxo with
    | none => (0, utxo, m, true)
    | some false => (0, utxo, m, false)
    | some true =>
      match applyTxs sha b.txs utxo m with
      | (u, m₁, true) => (0, u, m₁, true)
      | (u, m₁, false) =>
        match checkBranch sha ver rest u m₁ with
        | (k, u₁, m₂, r) => (k + 1, u₁, m₂, r)

/-- The mempool rebuild of the commit step: snapshot the old mempool, clear
it, and re-admit every entry through add_transaction_to_mempool. -/
def rebuildMempool (sha : Bytes → Bytes) (ver : Bytes → Bytes → Bytes → Bool)
    (st : NodeState) (txs : List Transaction) : NodeState :=
  txs.foldl (fun s tx => (add_transaction_to_mempool sha ver s tx).1) st

/-- The target of a notify_of_block call issued by the propagation loop
(node.py lines 146-147).  The loop body is `self.notify_of_block(block_hash,
self)`, so the emitted target records which node object the call addresses:
the node itself, or (for a hypothetical corrected loop) the i-th peer. -/
inductive NotifyTarget where
  | selfTarget : NotifyTarget
  | peerTarget (i : Nat) : NotifyTarget
deriving Repr, DecidableEq

/-- Outcome of Node.notify_of_block: fuel exhaustion (a diverging walk), or
the final local state together with whether an exception escaped to the
caller, whether the commit step (chain/utxo/mempool replacement) ran, and
the targets of the notify calls issued by the propagation loop. -/
inductive NResult where
  | spin : NResult
  | done (st : NodeState) (raised : Bool) (committed : Bool)
      (targets : List NotifyTarget) : NResult
deriving Repr, DecidableEq

/-- Node.notify_of_block, with the sender abstracted into its get_block
behaviour `fetch` (`none` models the ValueError for a block the sender
cannot supply).  Source structure: known/genesis short-circuit; unguarded
first fetch with hash recheck; candidate walk (fetch failures caught,
silent); local walk to the split point (lookup failures uncaught); length
gate; utxo rollback on a copy; forward validation with partial acceptance;
accept-longer gate; commit of chain, utxo and rebuilt mempool; propagation
loop.  The propagation loop calls self.notify_of_block: each iteration is a
no-op when the reported hash is on the committed chain, and otherwise the
recursive call's unguarded self.get_block raises out of the loop after the
first call. -/
def notify_of_block (sha : Bytes → Bytes) (ver : Bytes → Bytes → Bytes → Bool)
    (fuel : Nat) (st : NodeState) (block_hash : Bytes)
    (fetch : Bytes → Option Block) : NResult :=
  if block_hash = GENESIS_BLOCK_PREV then .done st false false []
  else
    match chainHashes sha st.blockchain with
    | none => .done st true false []
    | some hs =>
      if block_hash ∈ hs then .done st false false []
      else
        match fetch block_hash with
        | none => .done st true false []
        | some b₀ =>
          match b₀.get_block_hash sha with
          | none => .done st true false []
          | some hb =>
            if hb ≠ block_hash then .done st false false []
            else
              match walkNewBranch fetch hs fuel block_hash with
              | .spin => .spin
              | .failed => .done st false false []
              | .stop newBranch currHash =>
                match walkOldBranch st.blockchain hs fuel
                    (hs.getLastD GENESIS_BLOCK_PREV) currHash with
                | .spinO => .spin
                | .raisedO => .done st true false []
                | .stopO oldBranch =>
                  if newBranch.length > oldBranch.length then
                    match revertBranch sha st.txs_map oldBranch.reverse
                        st.utxo with
                    | none => .done st true false []
                    | some copyUtxo =>
                      match checkBranch sha ver newBranch.reverse copyUtxo
                          st.txs_map with
                      | (_, _, m₁, true) =>
                        .done { st with txs_map := m₁ } true false []
                      | (valid, newUtxo, m₁, false) =>
                        if valid = 0 ∨ valid ≤ oldBranch.length then
                          .done { st with txs_map := m₁ } false false []
                        else
                          let chain' :=
                            st.blockchain.take
                              (st.blockchain.length - oldBranch.length) ++
                            (newBranch.reverse.take valid)
                          let st₁ : NodeState :=
                            { st with
                              blockchain := chain'
                              utxo := newUtxo
                              txs_map := m₁
                              mempool := [] }
                          let st₂ := rebuildMempool sha ver st₁ st.mempool
                          if st.connections = 0 then .done st₂ false true []
                          else
                            match chainHashes sha st₂.blockchain with
                            | none => .done st₂ true true [.selfTarget]
                            | some hs₁ =>
                              if block_hash ∈ hs₁ then
                                .done st₂ false true
                                  (List.replicate st.connections .selfTarget)
                              else .done st₂ true true [.selfTarget]
                  else .done st false false []

/-- Sequential removal loop of Node._get_unspent_coins: for each spending
transaction, remove its input from the running balance; a missing entry is
the ValueError from list.remove (reachable when two spends of the same
input passed the count filter), modelled as `none`. -/
def removeSpent : List Transaction → List Bytes → Option (List Bytes)
  | [], balance => some balance
  | tx :: rest, balance =>
    match tx.input with
    | none => none  -- unreachable: the filter requires a present input
    | some i => if i ∈ balance then removeSpent rest (balance.erase i) else none

/-- Outcome of the chain walk of Node._get_unspent_coins. -/
inductive CoinsRes where
  | spinC : CoinsRes
  | raisedC : CoinsRes
  | okC (balance : List Bytes) : CoinsRes
deriving Repr, DecidableEq

/-- The `while GENESIS_BLOCK_PREV != temp_hash` loop of
Node._get_unspent_coins: per block, append the txids received by this node,
then remove the inputs spent from the running balance (the spend filter is
evaluated against the balance after the appends, before the removals, as in
the source). -/
def walkBalance (sha : Bytes → Bytes) (pk : Bytes) (chain : List Block)
    (hs : List Bytes) : Nat → Bytes → List Bytes → CoinsRes
  | 0, _, _ => .spinC
  | fuel + 1, temp, balance =>
    if temp = GENESIS_BLOCK_PREV then .okC balance
    else
      match getBlockInChain chain hs temp with
      | none => .raisedC
      | some b =>
        let ins := b.txs.filter (fun tx => tx.output = pk)
        let balance₁ := balance ++ ins.map (Transaction.get_txid sha)
        let outs := b.txs.filter (fun tx =>
          match tx.input with
          | none => false
          | some i => balance₁.count i > 0)
        match removeSpent outs balance₁ with
        | none => .raisedC
        | some balance₂ =>
          walkBalance sha pk chain hs fuel b.prev_block_hash balance₂

/-- Node._get_unspent_coins: walk the chain from the tip collecting the
node's unspent received coins.  Hash failures inside get_latest_hash or
get_block are uncaught exceptions. -/
def get_unspent_coins (sha : Bytes → Bytes) (fuel : Nat) (st : NodeState) :
    CoinsRes :=
  match chainHashes sha st.blockchain with
  | none => .raisedC
  | some hs =>
    walkBalance sha st.public_key st.blockchain hs fuel
      (hs.getLastD GENESIS_BLOCK_PREV) []

/-- Outcome of Node.create_transaction: the state after the call plus the
returned transaction (or None), the state at an escaped exception, or a
diverging walk. -/
inductive CreateRes where
  | spinT : CreateRes
  | raisedT (st : NodeState) : CreateRes
  | doneT (st : NodeState) (tx : Option Transaction) : CreateRes
deriving Repr, DecidableEq

/-- The tail of Node.create_transaction after the unfrozen-coin filter:
None when no coin is eligible, otherwise sign and admit a transfer of the
first eligible coin. -/
def createFromCoins (sha : Bytes → Bytes)
    (ver : Bytes → Bytes → Bytes → Bool) (sg : Bytes → Bytes)
    (st : NodeState) (target : Bytes) : List Bytes → CreateRes
  | [] => .doneT st none
  | txid :: _ =>
    let tx : Transaction :=
      { output := target, input := some txid,
        signature := sg (Transaction.get_message (some txid) target) }
    .doneT (add_transaction_to_mempool sha ver st tx).1 (some tx)

/-- Node.create_transaction: choose the first unspent coin not already
referenced by a mempool entry, sign input followed by target with the
node's private key (abstracted into `sg`), and admit the transaction
through add_transaction_to_mempool. -/
def create_transaction (sha : Bytes → Bytes)
    (ver : Bytes → Bytes → Bytes → Bool) (sg : Bytes → Bytes) (fuel : Nat)
    (st : NodeState) (target : Bytes) : CreateRes :=
  match get_unspent_coins sha fuel st with
  | .spinC => .spinT
  | .raisedC => .raisedT st
  | .okC coins =>
    let mempool_input_ids := st.mempool.map Transaction.input
    createFromCoins sha ver sg st target
      (coins.filter (fun c => some c ∉ mempool_input_ids))

/-- Node.clear_mempool. -/
def clear_mempool (st : NodeState) : NodeState := { st with mempool := [] }

/-- A public operation on a node, as observable from the node's own state.
Peer interactions are abstracted: a notification carries the sender's
get_block behaviour; a connect bumps the connection count and runs the
initial notify from the peer's tip (the peer's reciprocal notify only reads
this node's chain, and any transactions it gossips back arrive as further
addTx operations); a disconnect drops a connection. -/
inductive NodeOp where
  | addTx (tx : Transaction) : NodeOp
  | mineOp (coinbaseSig : Bytes) : NodeOp
  | notifyOp (h : Bytes) (fetch : Bytes → Option Block) (fuel : Nat) : NodeOp
  | createOp (target : Bytes) (fuel : Nat) : NodeOp
  | clearOp : NodeOp
  | connectOp (h : Bytes) (fetch : Bytes → Option Block) (fuel : Nat) : NodeOp
  | disconnectOp : NodeOp

/-- Apply one public operation to the node state.  `none` is a diverging
loop (the call never returns); an escaped exception returns the state at
the raise point, since the caller may keep using the node afterwards. -/
def applyOp (sha : Bytes → Bytes) (ver : Bytes → Bytes → Bytes → Bool)
    (sg : Bytes → Bytes) (st : NodeState) : NodeOp → Option NodeState
  | .addTx tx => some (add_transaction_to_mempool sha ver st tx).1
  | .mineOp sig =>
    match mine_block sha sig st with
    | .ok st₁ _ _ => some st₁
    | .raisedAt st₁ => some st₁
  | .notifyOp h fetch fuel =>
    match notify_of_block sha ver fuel st h fetch with
    | .spin => none
    | .done st₁ _ _ _ => some st₁
  | .createOp target fuel =>
    match create_transaction sha ver sg fuel st target with
    | .spinT => none
    | .raisedT st₁ => some st₁
    | .doneT st₁ _ => some st₁
  | .clearOp => some (clear_mempool st)
  | .connectOp h fetch fuel =>
    match notify_of_block sha ver fuel
        { st with connections := st.connections + 1 } h fetch with
    | .spin => none
    | .done st₁ _ _ _ => some st₁
  | .disconnectOp => some { st with connections := st.connections - 1 }

/-- Run a sequence of public operations. -/
def runOps (sha : Bytes → Bytes) (ver : Bytes → Bytes → Bytes → Bool)
    (sg : Bytes → Bytes) : List NodeOp → NodeState → Option NodeState
  | [], st => some st
  | op :: ops, st =>
    match applyOp sha ver sg st op with
    | none => none
    | some st₁ => runOps sha ver sg ops st₁

/-- The mempool invariant of the specification: every pending transaction
is a transfer (its input is present). -/
def mempoolInv (st : NodeState) : Prop :=
  ∀ tx ∈ st.mempool, tx.input ≠ none

instance (st : NodeState) : Decidable (mempoolInv st) := by
  unfold mempoolInv; infer_instance

/-- A run of public operations in which every mine_block call happens with
at most BLOCK_SIZE - 1 pending transactions (so the minted coinbase always
fits in the sliced block). -/
inductive GoodRun (sha : Bytes → Bytes) (ver : Bytes → Bytes → Bytes → Bool)
    (sg : Bytes → Bytes) : List NodeOp → NodeState → NodeState → Prop where
  | nil (st : NodeState) : GoodRun sha ver sg [] st st
  | cons {st st₁ st₂ : NodeState} {op : NodeOp} {ops : List NodeOp}
      (happly : applyOp sha ver sg st op = some st₁)
      (hmine : ∀ sig, op = .mineOp sig → st.mempool.length ≤ BLOCK_SIZE - 1)
      (hrest : GoodRun sha ver sg ops st₁ st₂) :
      GoodRun sha ver sg (op :: ops) st st₂

/-- A tip-first list of blocks is hash-linked: each block's prev hash is
the hash of the next (its parent), and the oldest block points at the
genesis sentinel.  A node's chain c is well formed when its reversal
satisfies this. -/
def revLinked (sha : Bytes → Bytes) : List Block → Prop
  | [] => True
  | [b] => b.prev_block_hash = GENESIS_BLOCK_PREV
  | b :: b' :: rest =>
    (∃ h', b'.get_block_hash sha = some h' ∧ b.prev_block_hash = h') ∧
    revLinked sha (b' :: rest)

/-- The hash a walk sits at when a tip-first list remains to be visited:
the head block's hash, or the genesis sentinel when nothing remains. -/
def headHashIs (sha : Bytes → Bytes) : List Block → Bytes → Prop
  | [], hb => hb = GENESIS_BLOCK_PREV
  | b :: _, hb => b.get_block_hash sha = some hb

/-- No two distinct blocks of the pool hash alike (the collision-freedom
assumption on SHA-256, restricted to the blocks in play). -/
def HashesDistinct (sha : Bytes → Bytes) (blocks : List Block) : Prop :=
  ∀ b1 ∈ blocks, ∀ b2 ∈ blocks,
    b1.get_block_hash sha = b2.get_block_hash sha → b1 = b2

/-- No block of the pool hashes to the genesis sentinel. -/
def NoGenesisHash (sha : Bytes → Bytes) (blocks : List Block) : Prop :=
  ∀ b ∈ blocks, b.get_block_hash sha ≠ some GENESIS_BLOCK_PREV

/-! Concrete instantiations of the cryptographic parameters and concrete
scenarios, used to evaluate the embedded operations at specific inputs.
`idsha` is an injective stand-in for SHA-256 (a tag byte followed by the
input), `tver` a verifier that accepts everything, `tsg` a trivial
signer. -/

def idsha : Bytes → Bytes := fun l => 0 :: l

def tver : Bytes → Bytes → Bytes → Bool := fun _ _ _ => true

def tsg : Bytes → Bytes := fun _ => []

/-- A sample transaction for Merkle evaluations. -/
def c1tx : Transaction := { output := [1], input := none, signature := [2] }

/-- A transfer spending a txid that no utxo entry has. -/
def orphanTx : Transaction := { output := [], input := some [9], signature := [] }

/-- A single-transaction block whose transfer spends a nonexistent input,
sitting directly on genesis. -/
def badBlock : Block :=
  { txs := [orphanTx], prev_block_hash := GENESIS_BLOCK_PREV }

/-- The hash of badBlock under idsha. -/
def badBlockHash : Bytes := (badBlock.get_block_hash idsha).getD []

/-- A sender that can only supply badBlock. -/
def fetchBadBlock : Bytes → Option Block :=
  fun h => if h = badBlockHash then some badBlock else none

/-- A block with no transactions sitting directly on genesis; its hash
under idsha is the tag byte followed by the genesis bytes. -/
def emptyBlock : Block := { txs := [], prev_block_hash := GENESIS_BLOCK_PREV }

def emptyBlockHash : Bytes := 0 :: GENESIS_BLOCK_PREV

/-- A fresh node with one connection, used for notification scenarios. -/
def st1conn : NodeState := { initNode [7] with connections := 1 }

/-- A sender that can only supply the empty block. -/
def fetchEmptyBlock : Bytes → Option Block :=
  fun h => if h = emptyBlockHash then some emptyBlock else none

/-- Coinbase transaction number k of the ten-block bootstrap chain. -/
def c7coin (k : Nat) : Transaction :=
  { output := [5], input := none, signature := [k] }

/-- The bootstrap chain: n chained blocks, block k holding the single
coinbase k, each linked to the hash of its predecessor. -/
def c7blocks : Nat → List Block
  | 0 => []
  | n + 1 =>
    let prev := c7blocks n
    prev ++ [{ txs := [c7coin (n + 1)],
               prev_block_hash := (get_latest_hash idsha prev).getD [] }]

def c7tip : Bytes := (get_latest_hash idsha (c7blocks 10)).getD []

/-- An honest sender holding the ten-block bootstrap chain. -/
def c7fetch : Bytes → Option Block := get_block idsha (c7blocks 10)

/-- A transfer spending the k-th bootstrap coinbase (its idsha txid). -/
def c7spend (k : Nat) : Transaction :=
  { output := [6], input := some [0, 5, k], signature := [] }

/-- A sequence of public operations: sync the bootstrap chain from a peer,
admit ten transfers spending its ten coinbases, then mine. -/
def c7ops : List NodeOp :=
  [ .notifyOp c7tip c7fetch 25 ] ++
  ((List.range 10).map (fun k => .addTx (c7spend (k + 1)))) ++ [ .mineOp [99] ]

/-- A node state holding one spendable utxo entry. -/
def c8st : NodeState := { initNode [7] with utxo := [c7coin 1] }

/-- A transfer spending that entry. -/
def c8tx : Transaction := c7spend 1

/-- A node state whose mempool holds four transfers: mining from it forms a
five-transaction block, an unhashable size. -/
def c6st : NodeState :=
  { initNode [7] with
    utxo := [c7coin 1, c7coin 2, c7coin 3, c7coin 4]
    mempool := [c7spend 1, c7spend 2, c7spend 3, c7spend 4] }

/-- Two divergent single-block chains on genesis, for the equal-length
tie scenario. -/
def tieBlockA : Block := { txs := [c1tx], prev_block_hash := GENESIS_BLOCK_PREV }

def tieBlockB : Block :=
  { txs := [{ output := [3], input := none, signature := [4] }],
    prev_block_hash := GENESIS_BLOCK_PREV }

def tieHashA : Bytes := (tieBlockA.get_block_hash idsha).getD []

def tieHashB : Bytes := (tieBlockB.get_block_hash idsha).getD []

/-- The receiver of the tie scenario: a node holding the one-block chain
with tieBlockA. -/
def tieNodeA : NodeState := { initNode [7] with blockchain := [tieBlockA] }

/-- A block on an unknown parent [9], so that walking past it requires a
fetch the sender cannot serve. -/
def danglingBlock : Block := { txs := [], prev_block_hash := [9] }

def danglingBlockHash : Bytes := (danglingBlock.get_block_hash idsha).getD []

/-- A sender that supplies danglingBlock and nothing else: the walk past
it fails inside the try/except of the fetch loop. -/
def fetchDangling : Bytes → Option Block :=
  fun h => if h = danglingBlockHash then some danglingBlock else none

/-- The state after st1conn adopts the empty block. -/
def st1connAfter : NodeState :=
  { initNode [7] with blockchain := [emptyBlock], connections := 1 }

/-! Theorems.  Each claim of the specification audit is settled by one
theorem below; shared lemmas precede them. -/

/-- C1: the Merkle computation is not total.  On five leaves the bottom
level is padded to six, the first combination leaves three hashes, and the
next level accesses index 3 of a three-element list: the computation
raises instead of returning a root, and get_block_hash of a block with
five transactions (a legal size, below BLOCK_SIZE) likewise returns no
hash.  The empty list does yield the empty byte string and four leaves do
yield a root, so the failure is specific to the sizes whose upper levels
go odd. -/
theorem c1_merkle_root_not_total :
    calculate_merkle_root idsha [[1], [2], [3], [4], [5]] = none ∧
    Block.get_block_hash idsha
      { txs := List.replicate 5 c1tx, prev_block_hash := GENESIS_BLOCK_PREV }
      = none ∧
    calculate_merkle_root idsha [] = some [] ∧
    (calculate_merkle_root idsha [[1], [2], [3], [4]]).isSome = true := by
  refine ⟨by decide, by decide, by decide, by decide⟩

/-- C5: _verify_block is not a total boolean predicate.  For a block
holding a transfer whose input matches no snapshot entry, the list.index
lookup inside _get_tx_with_id_from_utxo raises an uncaught ValueError
(modelled as none) instead of returning False; during a reorg this
exception escapes notify_of_block to the caller instead of silently
truncating the accepted prefix. -/
theorem c5_verify_block_raises :
    verify_block idsha tver badBlock [] = none ∧
    notify_of_block idsha tver 5 (initNode [7]) badBlockHash fetchBadBlock
      = .done (initNode [7]) true false [] := by
  refine ⟨by decide, by decide⟩

/-- C10: a transfer whose input is the empty byte string is rejected by
add_transaction_to_mempool with the state untouched and no gossip (the
falsy-input check classifies it with money creation), and its signing
message is just the output key. -/
theorem c10_empty_input_is_absent :
    ∀ (sha : Bytes → Bytes) (ver : Bytes → Bytes → Bytes → Bool)
      (st : NodeState) (out sig : Bytes),
      add_transaction_to_mempool sha ver st
        { output := out, input := some [], signature := sig } = (st, false, 0) ∧
      Transaction.get_message (some []) out = out := by
  intro sha ver st out sig
  constructor
  · simp [add_transaction_to_mempool]
  · simp [Transaction.get_message]

/-- C8: add_transaction_to_mempool returns true exactly when the four
admission conditions hold: the input is present (a nonempty byte string —
an empty input counts as absent at this interface), the input is the txid
of a utxo entry, no mempool entry already carries that input, and the
signature verifies the message input followed by output against the output
key of the (first) utxo entry being spent.  On admission the transaction
is appended to the mempool and forwarded to every connected peer; on
rejection the state is untouched; a transaction with absent input is never
admitted. -/
theorem c8_admission_conditions :
    ∀ (sha : Bytes → Bytes) (ver : Bytes → Bytes → Bytes → Bool)
      (st : NodeState) (tx : Transaction),
      ((add_transaction_to_mempool sha ver st tx).2.1 = true ↔
        (∃ i, tx.input = some i ∧ i ≠ [] ∧
          tx.input ∉ st.mempool.map Transaction.input ∧
          (∃ u, get_tx_with_id_from_utxo sha i st.utxo = some u ∧
            ver (i ++ tx.output) tx.signature u.output = true))) ∧
      ((add_transaction_to_mempool sha ver st tx).2.1 = true →
        add_transaction_to_mempool sha ver st tx =
          ({ st with mempool := st.mempool ++ [tx] }, true, st.connections)) ∧
      ((add_transaction_to_mempool sha ver st tx).2.1 = false →
        add_transaction_to_mempool sha ver st tx = (st, false, 0)) ∧
      (tx.input = none → (add_transaction_to_mempool sha ver st tx).2.1 = false) := by
  intro sha ver st tx
  unfold add_transaction_to_mempool
  match htx : tx.input with
  | none => simp
  | some i =>
    by_cases hnil : i = []
    · simp [hnil]
    · simp only [hnil, if_false]
      by_cases hmem : i ∈ st.utxo.map (Transaction.get_txid sha)
      · by_cases hpool : some i ∈ st.mempool.map Transaction.input
        · simp [hmem, hpool, htx]
        · obtain ⟨u, hu, hup⟩ := List.mem_map.mp hmem
          have hfind : (get_tx_with_id_from_utxo sha i st.utxo).isSome := by
            unfold get_tx_with_id_from_utxo
            exact List.find?_isSome.mpr ⟨u, hu, by simp [hup]⟩
          obtain ⟨src, hsrc⟩ := Option.isSome_iff_exists.mp hfind
          simp only [hmem, hpool, hsrc, if_true, if_false, ite_not]
          by_cases hver :
              ver (Transaction.get_message tx.input tx.output) tx.signature
                src.output = true
          · simp only [htx, Transaction.get_message, hnil, if_false] at hver
            simp [hver, htx, Transaction.get_message, hnil, hsrc]
          · simp only [htx, Transaction.get_message, hnil, if_false] at hver
            simp only [Bool.not_eq_true] at hver
            simp [hver, htx, Transaction.get_message, hnil, hsrc]
      · have hfind : get_tx_with_id_from_utxo sha i st.utxo = none := by
          unfold get_tx_with_id_from_utxo
          refine List.find?_eq_none.mpr ?_
          intro u hu
          simp only [decide_eq_true_eq]
          intro hup
          exact hmem (List.mem_map.mpr ⟨u, hu, hup⟩)
        simp [hmem, hfind, htx]

/-- Witness for C8: the admission succeeds on a node holding exactly the
spent utxo entry. -/
theorem c8_admission_witness :
    (add_transaction_to_mempool idsha tver c8st c8tx).2.1 = true :=
  (c8_admission_conditions idsha tver c8st c8tx).1.mpr
    ⟨[0, 5, 1], rfl, by decide, by decide, c7coin 1, by decide, rfl⟩

/-- Every outcome of notify_of_block that does not reach the commit step
leaves chain, utxo and mempool untouched: before the commit, the only
state field ever written is the transaction index (mutated by the
validation pass even on an abort). -/
theorem notify_not_committed_eq
    (sha : Bytes → Bytes) (ver : Bytes → Bytes → Bytes → Bool) (fuel : Nat)
    (st : NodeState) (h : Bytes) (fetch : Bytes → Option Block)
    (st' : NodeState) (raised : Bool) (ts : List NotifyTarget)
    (heq : notify_of_block sha ver fuel st h fetch = .done st' raised false ts) :
    st'.blockchain = st.blockchain ∧ st'.utxo = st.utxo ∧
      st'.mempool = st.mempool := by
  unfold notify_of_block at heq
  repeat' split at heq
  all_goals simp_all
  all_goals (repeat' split at heq)
  all_goals (try simp_all)
  all_goals (obtain ⟨hst, -, -⟩ := heq; cases hst; exact ⟨rfl, rfl, rfl⟩)

/-- C2: reorg atomicity.  For every starting state, reported hash, sender
behaviour and fuel, when notify_of_block returns without having reached
the commit step — a shorter or tied candidate, an empty or not strictly
longer validated prefix, an unavailable or hash-mismatched fetched block,
or any escaped exception before the commit — the chain, utxo and mempool
are exactly their pre-call values. -/
theorem c2_reorg_atomicity :
    ∀ (sha : Bytes → Bytes) (ver : Bytes → Bytes → Bytes → Bool) (fuel : Nat)
      (st : NodeState) (h : Bytes) (fetch : Bytes → Option Block)
      (st' : NodeState) (raised : Bool) (ts : List NotifyTarget),
      notify_of_block sha ver fuel st h fetch = .done st' raised false ts →
      st'.blockchain = st.blockchain ∧ st'.utxo = st.utxo ∧
        st'.mempool = st.mempool :=
  fun sha ver fuel st h fetch st' raised ts heq =>
    notify_not_committed_eq sha ver fuel st h fetch st' raised ts heq

/-- Witness for C2: a sender that cannot supply the reported block leaves
the one-connection fresh node byte-identical. -/
theorem c2_reorg_atomicity_witness :
    st1conn.blockchain = st1conn.blockchain ∧ st1conn.utxo = st1conn.utxo ∧
      st1conn.mempool = st1conn.mempool :=
  c2_reorg_atomicity idsha tver 5 st1conn [1] (fun _ => none) st1conn true []
    (by decide)

/-- C3: the propagation step notifies no peer.  The loop over
self.get_connections() invokes notify_of_block on the node itself, so
every call target it emits is the node itself; in particular no connected
peer learns the new tip from the adopting node, and the claimed onward
propagation of a strictly longer chain never happens. -/
theorem c3_propagation_targets_self :
    ∀ (sha : Bytes → Bytes) (ver : Bytes → Bytes → Bytes → Bool) (fuel : Nat)
      (st : NodeState) (h : Bytes) (fetch : Bytes → Option Block)
      (st' : NodeState) (raised committed : Bool) (ts : List NotifyTarget),
      notify_of_block sha ver fuel st h fetch = .done st' raised committed ts →
      ∀ t ∈ ts, t = NotifyTarget.selfTarget := by
  intro sha ver fuel st h fetch st' raised committed ts heq
  unfold notify_of_block at heq
  repeat' split at heq
  all_goals (try simp_all)
  all_goals (repeat' split at heq)
  all_goals (try simp_all)
  all_goals
    (obtain ⟨-, -, -, hts⟩ := heq
     intro t ht
     rw [← hts] at ht
     first
       | exact absurd ht (List.not_mem_nil t)
       | exact List.eq_of_mem_replicate ht
       | simpa using ht)

/-- Witness for C3: a committed reorg on a node with one connection emits
exactly one propagation call, addressed to the node itself and not to the
peer. -/
theorem c3_propagation_witness :
    NotifyTarget.peerTarget 0 ∉ ([NotifyTarget.selfTarget] : List NotifyTarget) := by
  have heval : notify_of_block idsha tver 5 st1conn emptyBlockHash
      fetchEmptyBlock = .done st1connAfter false true [.selfTarget] := by decide
  have hall := c3_propagation_targets_self idsha tver 5 st1conn emptyBlockHash
    fetchEmptyBlock st1connAfter false true [.selfTarget] heval
  intro hmem
  exact absurd (hall _ hmem) (by decide)

/-- Counterexample for C9: when the sender cannot supply the very first
requested block, the unguarded get_block call of line 109 raises out of
notify_of_block — the abort is not silent (the local state is still
unchanged). -/
theorem c9_first_fetch_raises :
    notify_of_block idsha tver 5 st1conn [1] (fun _ => none)
      = .done st1conn true false [] := by decide

/-- C9 as amended: a fetch failure inside the candidate-walk loop is
caught and aborts silently with the state unchanged, but a failure of the
initial fetch of the reported hash itself raises to the caller (state
still unchanged). -/
theorem c9_fetch_failure_behaviour :
    ∀ (sha : Bytes → Bytes) (ver : Bytes → Bytes → Bytes → Bool) (fuel : Nat)
      (st : NodeState) (h : Bytes) (fetch : Bytes → Option Block)
      (hs : List Bytes),
      h ≠ GENESIS_BLOCK_PREV →
      chainHashes sha st.blockchain = some hs →
      h ∉ hs →
      ((fetch h = none →
        notify_of_block sha ver fuel st h fetch = .done st true false []) ∧
       (∀ b, fetch h = some b → b.get_block_hash sha = some h →
        walkNewBranch fetch hs fuel h = .failed →
        notify_of_block sha ver fuel st h fetch = .done st false false [])) := by
  intro sha ver fuel st h fetch hs hgen hchain hmem
  constructor
  · intro hfetch
    unfold notify_of_block
    simp [hgen, hchain, hmem, hfetch]
  · intro b hfetch hbh hwalk
    unfold notify_of_block
    simp [hgen, hchain, hmem, hfetch, hbh, hwalk]

/-- Witness for C9: both behaviours at concrete inputs — the loop failure
past the dangling block is silent, the first-fetch failure raises. -/
theorem c9_fetch_failure_witness :
    notify_of_block idsha tver 5 st1conn danglingBlockHash fetchDangling
      = .done st1conn false false [] ∧
    notify_of_block idsha tver 5 st1conn [1] (fun _ => none)
      = .done st1conn true false [] := by
  constructor
  · exact (c9_fetch_failure_behaviour idsha tver 5 st1conn danglingBlockHash
      fetchDangling [] (by decide) (by decide) (by decide)).2 danglingBlock
      (by decide) (by decide) (by decide)
  · exact (c9_fetch_failure_behaviour idsha tver 5 st1conn [1]
      (fun _ => none) [] (by decide) (by decide) (by decide)).1 rfl

/-- Combining a level of even length succeeds and halves the length. -/
theorem combineLevel_of_even (sha : Bytes → Bytes) :
    ∀ (l : List Bytes), l.length % 2 = 0 →
      ∃ l2, combineLevel sha l = some l2 ∧ l2.length = l.length / 2
  | [], _ => ⟨[], rfl, rfl⟩
  | [x], h => by simp at h
  | x :: y :: rest, h => by
    have h2 : rest.length % 2 = 0 := by
      have : (x :: y :: rest).length = rest.length + 2 := by simp
      omega
    obtain ⟨l2, hl2, hlen⟩ := combineLevel_of_even sha rest h2
    refine ⟨sha (x ++ y) :: l2, by simp [combineLevel, hl2], ?_⟩
    simp [hlen]
    omega

/-- The combination loop terminates with a root on any level whose length
is a power of two, given fuel exceeding the exponent. -/
theorem merkleLoop_isSome_of_pow (sha : Bytes → Bytes) :
    ∀ (k fuel : Nat) (l : List Bytes), l.length = 2 ^ k → k < fuel →
      (merkleLoop sha fuel l).isSome := by
  intro k
  induction k with
  | zero =>
    intro fuel l hl hf
    match fuel, hf with
    | f + 1, _ =>
      unfold merkleLoop
      have : ¬ l.length > 1 := by omega
      simp only [this, if_false]
      cases l with
      | nil => simp at hl
      | cons a t => simp
  | succ k ih =>
    intro fuel l hl hf
    match fuel, hf with
    | f + 1, _ =>
      unfold merkleLoop
      have hgt : l.length > 1 := by
        rw [hl]; exact Nat.one_lt_two_pow (by omega)
      simp only [hgt, if_true]
      have heven : l.length % 2 = 0 := by
        rw [hl, Nat.pow_succ]; omega
      obtain ⟨l2, hl2, hlen⟩ := combineLevel_of_even sha l heven
      rw [hl2]
      refine ih f l2 ?_ (by omega)
      rw [hlen, hl, Nat.pow_succ]
      omega

/-- The Merkle root is computed without a raise exactly on the list sizes
whose padded bottom level keeps halving evenly; up to BLOCK_SIZE these are
0, 1, 2, 3, 4, 7 and 8. -/
theorem merkle_isSome_of_good_length (sha : Bytes → Bytes) (l : List Bytes)
    (h : l.length ∈ ([0, 1, 2, 3, 4, 7, 8] : List Nat)) :
    (calculate_merkle_root sha l).isSome := by
  simp only [List.mem_cons, List.not_mem_nil, or_false] at h
  unfold calculate_merkle_root
  by_cases hnil : l = []
  · simp [hnil]
  · simp only [hnil, if_false]
    have hlen : l.length ≠ 0 := by
      simpa using fun hz => hnil (List.length_eq_zero.mp hz)
    rcases h with h | h | h | h | h | h | h
    · omega
    · refine merkleLoop_isSome_of_pow sha 1 ?_ ?_ ?_ ?_ <;> simp [h]
    · refine merkleLoop_isSome_of_pow sha 1 ?_ ?_ ?_ ?_ <;> simp [h]
    · refine merkleLoop_isSome_of_pow sha 2 ?_ ?_ ?_ ?_ <;> simp [h]
    · refine merkleLoop_isSome_of_pow sha 2 ?_ ?_ ?_ ?_ <;> simp [h]
    · refine merkleLoop_isSome_of_pow sha 3 ?_ ?_ ?_ ?_ <;> simp [h]
    · refine merkleLoop_isSome_of_pow sha 3 ?_ ?_ ?_ ?_ <;> simp [h]

/-- Applying a list of transactions to a utxo raises no exception when
every present input is the txid of some utxo entry and the present inputs
are pairwise distinct. -/
theorem applyTxs_no_raise (sha : Bytes → Bytes) :
    ∀ (txs utxo : List Transaction) (m : TMap),
      (∀ tx ∈ txs, ∀ i, tx.input = some i →
        i ∈ utxo.map (Transaction.get_txid sha)) →
      (txs.filterMap Transaction.input).Nodup →
      (applyTxs sha txs utxo m).2.2 = false := by
  intro txs
  induction txs with
  | nil => intro utxo m _ _; rfl
  | cons tx rest ih =>
    intro utxo m hin hnd
    cases htx : tx.input with
    | none =>
      have hstep :
          update_utxo sha tx utxo m =
            some (utxo ++ [tx], mapInsert m (Transaction.get_txid sha tx) tx) := by
        unfold update_utxo; rw [htx]
      unfold applyTxs
      rw [hstep]
      refine ih (utxo ++ [tx]) _ ?_ ?_
      · intro tx' htx' i hi
        have := hin tx' (List.mem_cons_of_mem tx htx') i hi
        simp only [List.map_append, List.mem_append]
        exact Or.inl this
      · simpa [List.filterMap_cons, htx] using hnd
    | some i =>
      have hi : i ∈ utxo.map (Transaction.get_txid sha) :=
        hin tx (List.mem_cons_self tx rest) i htx
      obtain ⟨u, hu, hui⟩ := List.mem_map.mp hi
      have hfind : (get_tx_with_id_from_utxo sha i utxo).isSome := by
        unfold get_tx_with_id_from_utxo
        exact List.find?_isSome.mpr ⟨u, hu, by simp [hui]⟩
      obtain ⟨src, hsrc⟩ := Option.isSome_iff_exists.mp hfind
      have hsrcid : Transaction.get_txid sha src = i := by
        have := List.find?_some hsrc
        simpa using this
      have hstep :
          update_utxo sha tx utxo m =
            some (utxo.erase src ++ [tx],
              mapInsert m (Transaction.get_txid sha tx) tx) := by
        unfold update_utxo; rw [htx]; simp [hsrc]
      unfold applyTxs
      rw [hstep]
      have hnd' := hnd
      rw [List.filterMap_cons, htx] at hnd'
      have hnotin : i ∉ rest.filterMap Transaction.input :=
        (List.nodup_cons.mp hnd').1
      refine ih (utxo.erase src ++ [tx]) _ ?_ (List.nodup_cons.mp hnd').2
      intro tx' htx' j hj
      have hjmem : j ∈ utxo.map (Transaction.get_txid sha) :=
        hin tx' (List.mem_cons_of_mem tx htx') j hj
      have hji : j ≠ i := by
        intro hji
        exact hnotin (hji ▸ List.mem_filterMap.mpr ⟨tx', htx', hj⟩)
      obtain ⟨w, hw, hwj⟩ := List.mem_map.mp hjmem
      have hws : w ≠ src := fun hws => hji (by rw [← hwj, hws, hsrcid])
      simp only [List.map_append, List.mem_append]
      exact Or.inl (List.mem_map.mpr ⟨w, (List.mem_erase_of_ne hws).mpr hw, hwj⟩)

/-- Counterexample for C6: mining on a node with four pending transfers
(block size five) raises before any hash is returned — the block whose
transaction list the claim describes is never even appended, because
get_block_hash fails on a five-transaction block. -/
theorem c6_mine_raises_at_four :
    mine_block idsha [9] c6st = .raisedAt { c6st with mempool := [] } := by
  decide

/-- C6 as amended: for a mempool of length m such that the resulting block
size min(BLOCK_SIZE, m+1) is one of the Merkle-computable sizes (m in
{0,1,2,3,6,7}), whose present inputs are distinct and spendable in the
utxo, mine_block appends exactly one block holding the first
min(BLOCK_SIZE, m+1) entries of the mempool with the fresh coinbase at its
tail, returns that block's hash, and notifies every connection; for the
other sizes the hash computation raises before a hash is returned (see the
counterexample), so in particular the claimed silent coinbase drop at
m ≥ 10 is never observed. -/
theorem c6_mine_block_amended :
    ∀ (sha : Bytes → Bytes) (sig : Bytes) (st : NodeState) (L : Bytes),
      st.mempool.length ∈ ([0, 1, 2, 3, 6, 7] : List Nat) →
      get_latest_hash sha st.blockchain = some L →
      (∀ tx ∈ st.mempool, ∀ i, tx.input = some i →
        i ∈ st.utxo.map (Transaction.get_txid sha)) →
      (st.mempool.filterMap Transaction.input).Nodup →
      ∃ st' bh,
        mine_block sha sig st = .ok st' bh st.connections ∧
        st'.blockchain = st.blockchain ++
          [{ txs := (st.mempool ++
               [({ output := st.public_key, input := none, signature := sig } : Transaction)]).take BLOCK_SIZE,
             prev_block_hash := L }] ∧
        ((st.mempool ++
            [({ output := st.public_key, input := none, signature := sig } : Transaction)]).take
            BLOCK_SIZE).length = min BLOCK_SIZE (st.mempool.length + 1) ∧
        ((st.mempool ++
            [({ output := st.public_key, input := none, signature := sig } : Transaction)]).take
            BLOCK_SIZE).getLast? =
          some { output := st.public_key, input := none, signature := sig } ∧
        Block.get_block_hash sha
          { txs := (st.mempool ++
              [({ output := st.public_key, input := none, signature := sig } : Transaction)]).take BLOCK_SIZE,
            prev_block_hash := L } = some bh ∧
        st'.mempool = [] := by
  intro sha sig st L hm hL hin hnd
  have hm7 : st.mempool.length ≤ 7 := by
    simp only [List.mem_cons, List.not_mem_nil, or_false] at hm
    omega
  set coin : Transaction :=
    { output := st.public_key, input := none, signature := sig } with hcoin
  have hpoollen : (st.mempool ++ [coin]).length = st.mempool.length + 1 := by
    simp
  have htake : (st.mempool ++ [coin]).take BLOCK_SIZE = st.mempool ++ [coin] :=
    List.take_of_length_le (by rw [hpoollen]; unfold BLOCK_SIZE; omega)
  have hdrop : (st.mempool ++ [coin]).drop BLOCK_SIZE = [] :=
    List.drop_eq_nil_of_le (by rw [hpoollen]; unfold BLOCK_SIZE; omega)
  have hmk : (calculate_merkle_root sha
      ((st.mempool ++ [coin]).map (Transaction.get_txid sha))).isSome := by
    refine merkle_isSome_of_good_length sha _ ?_
    simp only [List.length_map, hpoollen]
    simp only [List.mem_cons, List.not_mem_nil, or_false] at hm ⊢
    omega
  obtain ⟨root, hroot⟩ := Option.isSome_iff_exists.mp hmk
  have hbh : Block.get_block_hash sha
      { txs := st.mempool ++ [coin], prev_block_hash := L } =
        some (sha (L ++ root)) := by
    unfold Block.get_block_hash
    simp only [hroot, Option.map_some']
  have happly : (applyTxs sha (st.mempool ++ [coin]) st.utxo st.txs_map).2.2
      = false := by
    refine applyTxs_no_raise sha _ _ _ ?_ ?_
    · intro tx htx i hi
      rcases List.mem_append.mp htx with h | h
      · exact hin tx h i hi
      · simp only [List.mem_singleton] at h
        rw [h, hcoin] at hi
        simp at hi
    · simpa [List.filterMap_append, hcoin] using hnd
  rcases happ : applyTxs sha (st.mempool ++ [coin]) st.utxo st.txs_map with
    ⟨u', m', r⟩
  have hr : r = false := by
    have := happly
    rw [happ] at this
    exact this
  subst hr
  have hmine : mine_block sha sig st =
      .ok { st with
            mempool := []
            blockchain := st.blockchain ++
              [{ txs := st.mempool ++ [coin], prev_block_hash := L }]
            utxo := u'
            txs_map := m' } (sha (L ++ root)) st.connections := by
    unfold mine_block
    simp only [← hcoin, htake, hdrop]
    have hbc : ({ st with mempool := ([] : List Transaction) }).blockchain
        = st.blockchain := rfl
    simp only [hbc, hL, hbh, happ]
  refine ⟨_, sha (L ++ root), hmine, ?_, ?_, ?_, ?_, rfl⟩
  · simp [htake]
  · rw [htake, hpoollen]
    unfold BLOCK_SIZE
    omega
  · rw [htake]; simp
  · rw [htake]; exact hbh

/-- Witness for C6: mining on a fresh node produces a block and returns
its hash. -/
theorem c6_mine_block_witness :
    ∃ st' bh, mine_block idsha [3] (initNode [7]) = .ok st' bh 0 := by
  obtain ⟨st', bh, h1, -, -, -, -, -⟩ :=
    c6_mine_block_amended idsha [3] (initNode [7]) GENESIS_BLOCK_PREV
      (by decide) (by decide) (by simp [initNode]) (by simp [initNode])
  exact ⟨st', bh, h1⟩

/-- The state part of add_transaction_to_mempool: either unchanged, or the
mempool extended by the admitted transaction, which has a present input. -/
theorem add_mempool_cases (sha : Bytes → Bytes)
    (ver : Bytes → Bytes → Bytes → Bool) (st : NodeState) (tx : Transaction) :
    (add_transaction_to_mempool sha ver st tx).1 = st ∨
    ((add_transaction_to_mempool sha ver st tx).1 =
      { st with mempool := st.mempool ++ [tx] } ∧ tx.input ≠ none) := by
  unfold add_transaction_to_mempool
  cases htx : tx.input with
  | none => exact Or.inl rfl
  | some i =>
    dsimp only
    repeat' split
    all_goals
      first
        | exact Or.inl rfl
        | exact Or.inr ⟨rfl, by simp [htx]⟩

/-- add_transaction_to_mempool preserves the all-transfers mempool
invariant: the only transaction it ever appends has passed the falsy-input
check. -/
theorem add_preserves_mempoolInv (sha : Bytes → Bytes)
    (ver : Bytes → Bytes → Bytes → Bool) (st : NodeState) (tx : Transaction)
    (hinv : mempoolInv st) :
    mempoolInv (add_transaction_to_mempool sha ver st tx).1 := by
  rcases add_mempool_cases sha ver st tx with h | ⟨h, hi⟩
  · rw [h]; exact hinv
  · rw [h]
    intro t ht
    rcases List.mem_append.mp ht with hm | hm
    · exact hinv t hm
    · simp only [List.mem_singleton] at hm
      subst hm
      exact hi

/-- The mempool rebuild preserves the invariant. -/
theorem rebuild_preserves_mempoolInv (sha : Bytes → Bytes)
    (ver : Bytes → Bytes → Bytes → Bool) :
    ∀ (txs : List Transaction) (st : NodeState), mempoolInv st →
      mempoolInv (rebuildMempool sha ver st txs)
  | [], _, hinv => hinv
  | tx :: rest, st, hinv =>
    rebuild_preserves_mempoolInv sha ver rest
      (add_transaction_to_mempool sha ver st tx).1
      (add_preserves_mempoolInv sha ver st tx hinv)

/-- Every state notify_of_block can return satisfies the mempool invariant
when the starting state did: aborts keep the old mempool, commits rebuild
it through the admission path. -/
theorem notify_preserves_mempoolInv (sha : Bytes → Bytes)
    (ver : Bytes → Bytes → Bytes → Bool) (fuel : Nat) (st : NodeState)
    (h : Bytes) (fetch : Bytes → Option Block) (st' : NodeState)
    (raised committed : Bool) (ts : List NotifyTarget)
    (hinv : mempoolInv st)
    (heq : notify_of_block sha ver fuel st h fetch
      = .done st' raised committed ts) :
    mempoolInv st' := by
  unfold notify_of_block at heq
  repeat' split at heq
  all_goals (try (dsimp only at heq))
  all_goals (try (repeat' split at heq))
  all_goals
    first
      | (injection heq with h1 h2 h3 h4
         first
           | (cases h1; exact hinv)
           | (cases h1
              exact rebuild_preserves_mempoolInv sha ver st.mempool _
                (fun t ht => absurd ht (List.not_mem_nil t))))
      | (simp at heq)

/-- mine_block empties the mempool whenever at most BLOCK_SIZE - 1
transactions were pending, whether or not an exception escapes. -/
theorem mine_mempool_nil (sha : Bytes → Bytes) (sig : Bytes) (st : NodeState)
    (hm : st.mempool.length ≤ BLOCK_SIZE - 1) :
    ∀ r, mine_block sha sig st = r →
      (match r with
       | .ok st₁ _ _ => st₁.mempool
       | .raisedAt st₁ => st₁.mempool) = [] := by
  have hd : (st.mempool ++
      [({ output := st.public_key, input := none, signature := sig } :
        Transaction)]).drop BLOCK_SIZE = [] := by
    refine List.drop_eq_nil_of_le ?_
    simp only [List.length_append, List.length_singleton]
    unfold BLOCK_SIZE at hm ⊢
    omega
  intro r hr
  subst hr
  unfold mine_block
  rcases h1 : get_latest_hash sha st.blockchain with _ | prev <;>
    simp only [h1]
  · simpa using hd
  · rcases h2 : Block.get_block_hash sha
        { txs := (st.mempool ++
            [({ output := st.public_key, input := none, signature := sig } :
              Transaction)]).take BLOCK_SIZE,
          prev_block_hash := prev } with _ | bh <;>
      simp only [h2]
    · simpa using hd
    · rcases h3 : applyTxs sha
          ((st.mempool ++
            [({ output := st.public_key, input := none, signature := sig } :
              Transaction)]).take BLOCK_SIZE) st.utxo st.txs_map with
        ⟨u, m, b⟩
      cases b <;> simpa using hd

/-- createFromCoins never raises, and the state it returns satisfies the
mempool invariant when the input state does. -/
theorem createFromCoins_inv (sha : Bytes → Bytes)
    (ver : Bytes → Bytes → Bytes → Bool) (sg : Bytes → Bytes)
    (st : NodeState) (target : Bytes) (hinv : mempoolInv st) :
    ∀ (l : List Bytes),
      (∀ s, createFromCoins sha ver sg st target l ≠ .raisedT s) ∧
      (∀ s o, createFromCoins sha ver sg st target l = .doneT s o →
        mempoolInv s)
  | [] => by
    refine ⟨fun s h => by simp [createFromCoins] at h, fun s o h => ?_⟩
    simp only [createFromCoins, CreateRes.doneT.injEq] at h
    cases h.1
    exact hinv
  | txid :: rest => by
    refine ⟨fun s h => by simp [createFromCoins] at h, fun s o h => ?_⟩
    simp only [createFromCoins, CreateRes.doneT.injEq] at h
    cases h.1
    exact add_preserves_mempoolInv sha ver st _ hinv

/-- C7 as amended: along any run of public operations in which every
mine_block call happens with at most BLOCK_SIZE - 1 pending transactions,
every mempool entry has a present input.  Without the bound the invariant
fails: mining with a full mempool leaves the fresh coinbase pending (see
the counterexample). -/
theorem c7_mempool_transfers_only :
    ∀ (sha : Bytes → Bytes) (ver : Bytes → Bytes → Bytes → Bool)
      (sg : Bytes → Bytes) (ops : List NodeOp) (st st' : NodeState),
      mempoolInv st →
      GoodRun sha ver sg ops st st' →
      mempoolInv st' := by
  intro sha ver sg ops st st' hinv hrun
  induction hrun with
  | nil st => exact hinv
  | cons happly hmine hrest ih =>
    refine ih ?_
    rename_i stc st₁ st₂ op ops'
    cases op with
    | addTx tx =>
      simp only [applyOp, Option.some.injEq] at happly
      cases happly
      exact add_preserves_mempoolInv sha ver stc tx hinv
    | mineOp sig =>
      have hbound := hmine sig rfl
      have hnil := mine_mempool_nil sha sig stc hbound
        (mine_block sha sig stc) rfl
      simp only [applyOp] at happly
      rcases hres : mine_block sha sig stc with hok | hraised
      all_goals
        (rw [hres] at happly hnil
         dsimp only at hnil
         simp only [Option.some.injEq] at happly
         cases happly
         intro t ht
         rw [hnil] at ht
         exact absurd ht (List.not_mem_nil t))
    | notifyOp h fetch fuel =>
      simp only [applyOp] at happly
      rcases hres : notify_of_block sha ver fuel stc h fetch with
        _ | ⟨sx, rx, cx, tsx⟩
      · rw [hres] at happly; exact absurd happly (by simp)
      · rw [hres] at happly
        simp only [Option.some.injEq] at happly
        cases happly
        exact notify_preserves_mempoolInv sha ver fuel stc h fetch _ rx cx tsx
          hinv hres
    | createOp target fuel =>
      simp only [applyOp] at happly
      rcases hres : create_transaction sha ver sg fuel stc target with
        _ | sx | ⟨sx, txx⟩
      · rw [hres] at happly; exact absurd happly (by simp)
      all_goals
        (rw [hres] at happly
         simp only [Option.some.injEq] at happly
         cases happly
         unfold create_transaction at hres
         rcases hg : get_unspent_coins sha fuel stc with _ | _ | coins <;>
           rw [hg] at hres <;> dsimp only at hres)
      · simp at hres
      · injection hres with h1
        cases h1
        exact hinv
      · exact absurd hres
          ((createFromCoins_inv sha ver sg stc target hinv _).1 st₁)
      · simp at hres
      · simp at hres
      · exact (createFromCoins_inv sha ver sg stc target hinv _).2 st₁ txx hres
    | clearOp =>
      simp only [applyOp, clear_mempool, Option.some.injEq] at happly
      cases happly
      intro t ht
      exact absurd ht (List.not_mem_nil t)
    | connectOp h fetch fuel =>
      simp only [applyOp] at happly
      rcases hres : notify_of_block sha ver fuel
          { stc with connections := stc.connections + 1 } h fetch with
        _ | ⟨sx, rx, cx, tsx⟩
      · rw [hres] at happly; exact absurd happly (by simp)
      · rw [hres] at happly
        simp only [Option.some.injEq] at happly
        cases happly
        exact notify_preserves_mempoolInv sha ver fuel
          { stc with connections := stc.connections + 1 } h fetch _ rx cx tsx
          hinv hres
    | disconnectOp =>
      simp only [applyOp, Option.some.injEq] at happly
      cases happly
      exact hinv

/-- Witness for C7: a bounded run (clear, then mine on an empty mempool)
ends in a state whose mempool holds only transfers. -/
theorem c7_mempool_witness :
    mempoolInv
      { public_key := [7], mempool := [],
        blockchain := [{ txs := [{ output := [7], input := none, signature := [1] }],
                         prev_block_hash := GENESIS_BLOCK_PREV }],
        utxo := [{ output := [7], input := none, signature := [1] }],
        txs_map := [([0, 7, 1], { output := [7], input := none, signature := [1] })],
        connections := 0 } := by
  refine c7_mempool_transfers_only idsha tver tsg [.clearOp, .mineOp [1]]
    (initNode [7]) _ (by decide) ?_
  refine @GoodRun.cons idsha tver tsg (initNode [7])
    { public_key := [7], mempool := [], blockchain := [], utxo := [],
      txs_map := [], connections := 0 }
    _ .clearOp [.mineOp [1]] (by decide) (by simp) ?_
  refine @GoodRun.cons idsha tver tsg
    { public_key := [7], mempool := [], blockchain := [], utxo := [],
      txs_map := [], connections := 0 }
    { public_key := [7], mempool := [],
      blockchain := [{ txs := [{ output := [7], input := none, signature := [1] }],
                       prev_block_hash := GENESIS_BLOCK_PREV }],
      utxo := [{ output := [7], input := none, signature := [1] }],
      txs_map := [([0, 7, 1], { output := [7], input := none, signature := [1] })],
      connections := 0 }
    _ (.mineOp [1]) [] (by decide) (fun sig _ => by decide) ?_
  exact GoodRun.nil _

/-- Counterexample for C7: a reachable sequence of public operations —
adopt a ten-block chain from a peer, admit ten transfers spending its ten
coinbases, then mine — ends with the freshly minted coinbase sitting in
the mempool (the mine raises while hashing the ten-transaction block, but
the mempool had already been sliced), so the all-transfers invariant fails
after a public-operation sequence. -/
theorem c7_coinbase_in_mempool :
    ((runOps idsha tver tsg c7ops (initNode [7])).map
      (fun st => st.mempool.map Transaction.input)) = some [none] ∧
    ¬ (∀ st, runOps idsha tver tsg c7ops (initNode [7]) = some st →
        mempoolInv st) := by
  have h1 : ((runOps idsha tver tsg c7ops (initNode [7])).map
      (fun st => st.mempool.map Transaction.input)) = some [none] := by decide
  refine ⟨h1, fun hall => ?_⟩
  rcases hrun : runOps idsha tver tsg c7ops (initNode [7]) with _ | stF
  · rw [hrun] at h1; simp at h1
  · have hinv := hall stF hrun
    rw [hrun] at h1
    simp only [Option.map_some', Option.some.injEq] at h1
    cases hm : stF.mempool with
    | nil => rw [hm] at h1; simp at h1
    | cons t rest =>
      rw [hm] at h1
      simp only [List.map_cons, List.cons.injEq] at h1
      exact hinv t (by rw [hm]; exact List.mem_cons_self t rest) h1.1

/-- The hash list computed by chainHashes matches the chain pointwise. -/
theorem chainHashes_spec (sha : Bytes → Bytes) :
    ∀ (c : List Block) (hs : List Bytes), chainHashes sha c = some hs →
      hs.length = c.length ∧
      ∀ p ∈ hs.zip c, p.2.get_block_hash sha = some p.1
  | [], hs, h => by
    simp only [chainHashes, Option.some.injEq] at h
    subst h
    simp
  | b :: rest, hs, h => by
    unfold chainHashes at h
    rcases hb : b.get_block_hash sha with _ | hb0 <;> rw [hb] at h
    · simp at h
    · rcases hr : chainHashes sha rest with _ | hs0 <;> rw [hr] at h
      · simp at h
      · simp only [Option.some.injEq] at h
        subst h
        obtain ⟨hlen, hcorr⟩ := chainHashes_spec sha rest hs0 hr
        refine ⟨by simp [hlen], ?_⟩
        intro p hp
        rcases List.mem_cons.mp hp with hph | hpt
        · subst hph; exact hb
        · exact hcorr p hpt

/-- Every block of a hashable chain appears in the hash-block zip with its
own hash. -/
theorem chainHashes_mem_zip (sha : Bytes → Bytes) :
    ∀ (c : List Block) (hs : List Bytes), chainHashes sha c = some hs →
      ∀ b ∈ c, ∃ hb, b.get_block_hash sha = some hb ∧ (hb, b) ∈ hs.zip c
  | [], _, _ => by simp
  | b :: rest, hs, h => by
    unfold chainHashes at h
    rcases hb : b.get_block_hash sha with _ | hb0 <;> rw [hb] at h
    · simp at h
    · rcases hr : chainHashes sha rest with _ | hs0 <;> rw [hr] at h
      · simp at h
      · simp only [Option.some.injEq] at h
        subst h
        intro x hx
        rcases List.mem_cons.mp hx with hxh | hxt
        · subst hxh
          exact ⟨hb0, hb, by simp⟩
        · obtain ⟨hx0, hxh, hxz⟩ := chainHashes_mem_zip sha rest hs0 hr x hxt
          exact ⟨hx0, hxh, by simp [List.zip_cons_cons]; right; exact hxz⟩

/-- Any member of the left list of a length-matched zip is paired with
some member of the right list. -/
theorem mem_zip_left :
    ∀ (hs : List Bytes) (c : List Block), hs.length = c.length →
      ∀ h ∈ hs, ∃ b, (h, b) ∈ hs.zip c
  | [], _, _ => by simp
  | h0 :: hs', [], hlen => by simp at hlen
  | h0 :: hs', b0 :: c', hlen => by
    intro h hh
    rcases List.mem_cons.mp hh with hph | hpt
    · subst hph
      exact ⟨b0, by simp⟩
    · obtain ⟨b, hb⟩ := mem_zip_left hs' c' (by simpa using hlen) h hpt
      exact ⟨b, by simp [List.zip_cons_cons]; right; exact hb⟩

/-- Looking a block's own hash up in its chain returns that block, given
collision freedom over the pool of blocks in play. -/
theorem getBlockInChain_honest (sha : Bytes → Bytes) (c : List Block)
    (hs : List Bytes) (U : List Block)
    (hch : chainHashes sha c = some hs) (hdis : HashesDistinct sha U)
    (hsub : ∀ x ∈ c, x ∈ U) (b : Block) (hb : Bytes)
    (hbc : b ∈ c) (hbh : b.get_block_hash sha = some hb) :
    getBlockInChain c hs hb = some b := by
  obtain ⟨hb', hbh', hmemz⟩ := chainHashes_mem_zip sha c hs hch b hbc
  have hbb : hb' = hb := by
    rw [hbh] at hbh'
    exact (Option.some.inj hbh').symm
  subst hbb
  unfold getBlockInChain
  have hfind : ((hs.zip c).find? (fun p => p.1 = hb')).isSome :=
    List.find?_isSome.mpr ⟨(hb', b), hmemz, by simp⟩
  obtain ⟨p0, hp0⟩ := Option.isSome_iff_exists.mp hfind
  have hp0eq : p0.1 = hb' := by
    have := List.find?_some hp0
    simpa using this
  have hp0mem : p0 ∈ hs.zip c := List.mem_of_find?_eq_some hp0
  have hp0hash : p0.2.get_block_hash sha = some p0.1 :=
    (chainHashes_spec sha c hs hch).2 p0 hp0mem
  have hp02 : p0.2 = b := by
    refine hdis p0.2 (hsub _ (List.of_mem_zip hp0mem).2) b (hsub _ hbc) ?_
    rw [hp0hash, hp0eq, hbh']
  rw [hp0]
  simp [hp02]

/-- The tail of a tip-first linked list is linked. -/
theorem revLinked_tail (sha : Bytes → Bytes) :
    ∀ (b : Block) (D : List Block), revLinked sha (b :: D) → revLinked sha D
  | _, [], _ => trivial
  | _, _ :: _, h => h.2

/-- Every suffix of a tip-first linked list is linked. -/
theorem revLinked_suffix (sha : Bytes → Bytes) :
    ∀ (X Y : List Block), revLinked sha (X ++ Y) → revLinked sha Y
  | [], _, h => h
  | x :: X', Y, h =>
    revLinked_suffix sha X' Y (revLinked_tail sha x (X' ++ Y) h)

/-- In a tip-first linked list, the head's prev hash is the head hash of
the tail. -/
theorem revLinked_head_prev (sha : Bytes → Bytes) :
    ∀ (b : Block) (D : List Block), revLinked sha (b :: D) →
      headHashIs sha D b.prev_block_hash
  | _, [], h => h
  | b, b' :: D', h => by
    obtain ⟨⟨h', hh', hp⟩, _⟩ := h
    show b'.get_block_hash sha = some b.prev_block_hash
    rw [hp]
    exact hh'

/-- Two tip-first linked lists over a collision-free pool with the same
head hash are equal. -/
theorem revChain_unique (sha : Bytes → Bytes) (U : List Block)
    (hdis : HashesDistinct sha U) (hgen : NoGenesisHash sha U) :
    ∀ (D E : List Block) (hb : Bytes), revLinked sha D → revLinked sha E →
      (∀ x ∈ D, x ∈ U) → (∀ x ∈ E, x ∈ U) →
      headHashIs sha D hb → headHashIs sha E hb → D = E := by
  intro D
  induction D with
  | nil =>
    intro E hb _ hlE _ hsubE hhD hhE
    cases E with
    | nil => rfl
    | cons e E' =>
      have hbg : hb = GENESIS_BLOCK_PREV := hhD
      refine absurd (hhE.trans (by rw [hbg])) (hgen e (hsubE e ?_))
      exact List.mem_cons_self e E'
  | cons d D' ih =>
    intro E hb hlD hlE hsubD hsubE hhD hhE
    cases E with
    | nil =>
      have hbg : hb = GENESIS_BLOCK_PREV := hhE
      exact absurd (show d.get_block_hash sha = some GENESIS_BLOCK_PREV by
        rw [← hbg]; exact hhD)
        (hgen d (hsubD d (List.mem_cons_self d D')))
    | cons e E' =>
      have hde : d = e := by
        refine hdis d (hsubD d (List.mem_cons_self d D'))
          e (hsubE e (List.mem_cons_self e E')) ?_
        rw [show d.get_block_hash sha = some hb from hhD,
          show e.get_block_hash sha = some hb from hhE]
      subst hde
      have htl : D' = E' := by
        refine ih E' d.prev_block_hash (revLinked_tail sha d D' hlD)
          (revLinked_tail sha d E' hlE)
          (fun x hx => hsubD x (List.mem_cons_of_mem d hx))
          (fun x hx => hsubE x (List.mem_cons_of_mem d hx))
          (revLinked_head_prev sha d D' hlD)
          (revLinked_head_prev sha d E' hlE)
      rw [htl]

/-- A tip-first linked list of hashable blocks over a collision-free pool
has no duplicate blocks. -/
theorem revLinked_nodup (sha : Bytes → Bytes) (U : List Block)
    (hdis : HashesDistinct sha U) (hgen : NoGenesisHash sha U) :
    ∀ (D : List Block), revLinked sha D → (∀ x ∈ D, x ∈ U) →
      (∀ x ∈ D, ∃ hx, x.get_block_hash sha = some hx) → D.Nodup := by
  intro D
  induction D with
  | nil => intro _ _ _; simp
  | cons d D' ih =>
    intro hl hsub hhash
    refine List.nodup_cons.mpr ⟨?_, ih (revLinked_tail sha d D' hl)
      (fun x hx => hsub x (List.mem_cons_of_mem d hx))
      (fun x hx => hhash x (List.mem_cons_of_mem d hx))⟩
    intro hmem
    obtain ⟨A, B, hAB⟩ := List.append_of_mem hmem
    obtain ⟨hd, hhd⟩ := hhash d (List.mem_cons_self d D')
    have hsfx : revLinked sha (d :: B) := by
      refine revLinked_suffix sha A (d :: B) ?_
      rw [← hAB]
      exact revLinked_tail sha d D' hl
    have hEq : (d :: D') = (d :: B) := by
      refine revChain_unique sha U hdis hgen (d :: D') (d :: B) hd hl hsfx
        hsub ?_ hhd hhd
      intro x hx
      refine hsub x ?_
      rcases List.mem_cons.mp hx with hxh | hxt
      · subst hxh; exact List.mem_cons_self x _
      · exact List.mem_cons_of_mem d (hAB ▸ List.mem_append_right A
          (List.mem_cons_of_mem d hxt))
    have hlen := congrArg List.length hEq
    simp only [List.length_cons] at hlen
    have hlen2 := congrArg List.length hAB
    simp only [List.length_append, List.length_cons] at hlen2
    omega

/-- chainHashes of a chain ending in b ends in the hash of b. -/
theorem chainHashes_append_singleton (sha : Bytes → Bytes) :
    ∀ (c' : List Block) (b : Block) (hs : List Bytes),
      chainHashes sha (c' ++ [b]) = some hs →
      ∃ hs' hb, hs = hs' ++ [hb] ∧ chainHashes sha c' = some hs' ∧
        b.get_block_hash sha = some hb
  | [], b, hs, h => by
    simp only [List.nil_append] at h
    unfold chainHashes at h
    rcases hb : b.get_block_hash sha with _ | hb0 <;> rw [hb] at h
    · simp at h
    · simp only [chainHashes] at h
      injection h with h
      subst h
      exact ⟨[], hb0, rfl, rfl, rfl⟩
  | c0 :: c', b, hs, h => by
    rw [List.cons_append] at h
    unfold chainHashes at h
    rcases hc0 : c0.get_block_hash sha with _ | h0 <;> rw [hc0] at h
    · simp at h
    · rcases hr : chainHashes sha (c' ++ [b]) with _ | hs0 <;> rw [hr] at h
      · simp at h
      · simp only [Option.some.injEq] at h
        subst h
        obtain ⟨hs', hb', hrfl, hch', hbh⟩ :=
          chainHashes_append_singleton sha c' b hs0 hr
        refine ⟨h0 :: hs', hb', by rw [hrfl]; rfl, ?_, hbh⟩
        unfold chainHashes
        rw [hc0, hch']

/-- The last hash of the chain's hash list heads the reversed chain. -/
theorem chainHashes_last_headHash (sha : Bytes → Bytes) :
    ∀ (c : List Block) (hs : List Bytes), chainHashes sha c = some hs →
      headHashIs sha c.reverse (hs.getLastD GENESIS_BLOCK_PREV) := by
  intro c
  induction c using List.reverseRecOn with
  | nil =>
    intro hs h
    simp only [chainHashes, Option.some.injEq] at h
    subst h
    rfl
  | append_singleton c' b _ =>
    intro hs h
    obtain ⟨hs', hb, hrfl, _, hbh⟩ :=
      chainHashes_append_singleton sha c' b hs h
    subst hrfl
    rw [List.reverse_append]
    simp only [List.reverse_singleton, List.singleton_append]
    show b.get_block_hash sha = some ((hs' ++ [hb]).getLastD GENESIS_BLOCK_PREV)
    rw [List.getLastD_eq_getLast?, List.getLast?_concat]
    exact hbh

/-- The latest hash of a chain heads its reversal. -/
theorem get_latest_headHash (sha : Bytes → Bytes) :
    ∀ (c : List Block) (h : Bytes), get_latest_hash sha c = some h →
      headHashIs sha c.reverse h := by
  intro c
  induction c using List.reverseRecOn with
  | nil =>
    intro h hl
    simp only [get_latest_hash, List.getLast?_nil, Option.some.injEq] at hl
    exact hl.symm
  | append_singleton c' b _ =>
    intro h hl
    unfold get_latest_hash at hl
    rw [List.getLast?_concat] at hl
    rw [List.reverse_append]
    simp only [List.reverse_singleton, List.singleton_append]
    exact hl

/-- Characterization of the candidate-branch walk against an honest sender
holding chain c2: the walk either runs out of fuel or splits the remaining
tip-first chain into the collected branch and an untraversed rest, stopping
at the rest's head hash — a locally known hash unless the whole chain was
walked down to genesis. -/
theorem walkNew_characterize (sha : Bytes → Bytes) (c2 : List Block)
    (hs1 hs2 : List Bytes) (U : List Block)
    (hch : chainHashes sha c2 = some hs2)
    (hdis : HashesDistinct sha U) (hgen : NoGenesisHash sha U)
    (hsub : ∀ x ∈ c2, x ∈ U) :
    ∀ (D : List Block) (hb : Bytes) (fuel : Nat),
      revLinked sha D → (∀ x ∈ D, x ∈ c2) → headHashIs sha D hb →
      walkNewBranch (get_block sha c2) hs1 fuel hb = .spin ∨
      ∃ R S sH, D = R ++ S ∧
        walkNewBranch (get_block sha c2) hs1 fuel hb = .stop R sH ∧
        headHashIs sha S sH ∧ (S ≠ [] → sH ∈ hs1) := by
  intro D
  induction D with
  | nil =>
    intro hb fuel _ _ hhb
    cases fuel with
    | zero => exact Or.inl rfl
    | succ f =>
      right
      have hbg : hb = GENESIS_BLOCK_PREV := hhb
      refine ⟨[], [], hb, rfl, ?_, hhb, by simp⟩
      unfold walkNewBranch
      simp [hbg]
  | cons b D' ih =>
    intro hb fuel hlink hmem hhb
    cases fuel with
    | zero => exact Or.inl rfl
    | succ f =>
      have hbmem : b ∈ c2 := hmem b (List.mem_cons_self b D')
      have hbU : b ∈ U := hsub b hbmem
      have hbne : hb ≠ GENESIS_BLOCK_PREV := by
        intro he
        exact hgen b hbU (by rw [← he]; exact hhb)
      by_cases hknown : hb ∈ hs1
      · right
        refine ⟨[], b :: D', hb, rfl, ?_, hhb, fun _ => hknown⟩
        unfold walkNewBranch
        simp [hknown]
      · have hfetch : get_block sha c2 hb = some b := by
          unfold get_block
          rw [hch]
          exact getBlockInChain_honest sha c2 hs2 U hch hdis hsub b hb hbmem
            hhb
        have hcond : ¬ (hb ∈ hs1 ∨ hb = GENESIS_BLOCK_PREV) := by
          simp [hknown, hbne]
        have hprev : headHashIs sha D' b.prev_block_hash :=
          revLinked_head_prev sha b D' hlink
        have hlink' : revLinked sha D' := revLinked_tail sha b D' hlink
        have hmem' : ∀ x ∈ D', x ∈ c2 :=
          fun x hx => hmem x (List.mem_cons_of_mem b hx)
        rcases ih b.prev_block_hash f hlink' hmem' hprev with
          hspin | ⟨R, S, sH, hDS, hwalk, hSpec, hSin⟩
        · left
          unfold walkNewBranch
          rw [if_neg hcond]
          simp only [hfetch, hspin]
        · right
          refine ⟨b :: R, S, sH, by rw [hDS, List.cons_append], ?_, hSpec, hSin⟩
          unfold walkNewBranch
          rw [if_neg hcond]
          simp only [hfetch, hwalk]

/-- Characterization of the local walk back to the split point: from the
head of the tip-first chain R ++ S, with the target being the head hash of
S and no block of R hashing to the target, the walk either runs out of
fuel or collects exactly R. -/
theorem walkOld_characterize (sha : Bytes → Bytes) (c1 : List Block)
    (hs1 : List Bytes) (U : List Block)
    (hch : chainHashes sha c1 = some hs1)
    (hdis : HashesDistinct sha U) (_hgen : NoGenesisHash sha U)
    (hsub : ∀ x ∈ c1, x ∈ U) (target : Bytes) :
    ∀ (R S : List Block) (hb : Bytes) (fuel : Nat),
      revLinked sha (R ++ S) → (∀ x ∈ R ++ S, x ∈ c1) →
      headHashIs sha (R ++ S) hb → headHashIs sha S target →
      (∀ r ∈ R, r.get_block_hash sha ≠ some target) →
      walkOldBranch c1 hs1 fuel hb target = .spinO ∨
      walkOldBranch c1 hs1 fuel hb target = .stopO R := by
  intro R
  induction R with
  | nil =>
    intro S hb fuel _ _ hhb hhS _
    cases fuel with
    | zero => exact Or.inl rfl
    | succ f =>
      right
      have hbt : hb = target := by
        cases S with
        | nil => rw [show hb = GENESIS_BLOCK_PREV from hhb,
            show target = GENESIS_BLOCK_PREV from hhS]
        | cons s0 S' =>
          have h1 : s0.get_block_hash sha = some hb := hhb
          have h2 : s0.get_block_hash sha = some target := hhS
          rw [h1] at h2
          exact Option.some.inj h2
      unfold walkOldBranch
      simp [hbt]
  | cons r R' ih =>
    intro S hb fuel hlink hmem hhb hhS hnot
    cases fuel with
    | zero => exact Or.inl rfl
    | succ f =>
      have hrhash : r.get_block_hash sha = some hb := hhb
      have hbt : hb ≠ target := by
        intro he
        exact hnot r (List.mem_cons_self r R') (by rw [hrhash, he])
      have hlookup : getBlockInChain c1 hs1 hb = some r := by
        refine getBlockInChain_honest sha c1 hs1 U hch hdis hsub r hb ?_
          hrhash
        exact hmem r (List.mem_cons_self r (R' ++ S))
      have hprev : headHashIs sha (R' ++ S) r.prev_block_hash :=
        revLinked_head_prev sha r (R' ++ S) hlink
      have hlink' : revLinked sha (R' ++ S) :=
        revLinked_tail sha r (R' ++ S) hlink
      have hmem' : ∀ x ∈ R' ++ S, x ∈ c1 :=
        fun x hx => hmem x (List.mem_cons_of_mem r hx)
      have hnot' : ∀ x ∈ R', x.get_block_hash sha ≠ some target :=
        fun x hx => hnot x (List.mem_cons_of_mem r hx)
      rcases ih S r.prev_block_hash f hlink' hmem' hprev hhS hnot' with
        hspin | hstop
      · left
        unfold walkOldBranch
        rw [if_neg hbt]
        simp only [hlookup, hspin]
      · right
        unfold walkOldBranch
        rw [if_neg hbt]
        simp only [hlookup, hstop]

/-- Tie preservation: a node holding a well-formed chain, notified of the
tip of another well-formed chain of the same length (held by an honest
sender), never changes its own chain — the computed candidate and local
branches from the split point have equal length, so the strict length gate
rejects the candidate.  Collision freedom of the block hashes over the two
chains and the absence of blocks hashing to the genesis sentinel are the
standing assumptions on SHA-256. -/
theorem notify_tie_preserved
    (sha : Bytes → Bytes) (ver : Bytes → Bytes → Bytes → Bool)
    (st : NodeState) (c1 c2 : List Block) (hs1 hs2 : List Bytes) (h : Bytes)
    (hbc : st.blockchain = c1)
    (hch1 : chainHashes sha c1 = some hs1)
    (hch2 : chainHashes sha c2 = some hs2)
    (hl1 : revLinked sha c1.reverse)
    (hl2 : revLinked sha c2.reverse)
    (hdis : HashesDistinct sha (c1 ++ c2))
    (hgen : NoGenesisHash sha (c1 ++ c2))
    (hlen : c1.length = c2.length)
    (htip : get_latest_hash sha c2 = some h) :
    ∀ (fuel : Nat) (st' : NodeState) (raised committed : Bool)
      (ts : List NotifyTarget),
      notify_of_block sha ver fuel st h (get_block sha c2)
        = .done st' raised committed ts →
      st'.blockchain = st.blockchain := by
  intro fuel st' raised committed ts heq
  have hsub1 : ∀ x ∈ c1, x ∈ c1 ++ c2 := fun x hx => List.mem_append_left c2 hx
  have hsub2 : ∀ x ∈ c2, x ∈ c1 ++ c2 := fun x hx => List.mem_append_right c1 hx
  by_cases hgenh : h = GENESIS_BLOCK_PREV
  · unfold notify_of_block at heq
    rw [if_pos hgenh] at heq
    injection heq with h1 _ _ _
    cases h1
    rfl
  · unfold notify_of_block at heq
    rw [if_neg hgenh, hbc, hch1] at heq
    dsimp only at heq
    by_cases hmem : h ∈ hs1
    · rw [if_pos hmem] at heq
      injection heq with h1 _ _ _
      cases h1
      rfl
    · rw [if_neg hmem] at heq
      have hD2 : headHashIs sha c2.reverse h := get_latest_headHash sha c2 h htip
      rcases hc2r : c2.reverse with _ | ⟨b2, D2'⟩
      · rw [hc2r] at hD2
        exact absurd hD2 hgenh
      · have hb2hash : b2.get_block_hash sha = some h := by
          rw [hc2r] at hD2
          exact hD2
        have hb2c2 : b2 ∈ c2 := by
          refine List.mem_reverse.mp ?_
          rw [hc2r]
          exact List.mem_cons_self b2 D2'
        have hfetch : get_block sha c2 h = some b2 := by
          unfold get_block
          rw [hch2]
          exact getBlockInChain_honest sha c2 hs2 (c1 ++ c2) hch2 hdis hsub2
            b2 h hb2c2 hb2hash
        rw [hfetch] at heq
        dsimp only at heq
        rw [hb2hash] at heq
        dsimp only at heq
        rw [if_neg (fun hne => hne rfl : ¬ h ≠ h)] at heq
        rcases walkNew_characterize sha c2 hs1 hs2 (c1 ++ c2) hch2 hdis hgen
            hsub2 c2.reverse h fuel hl2 (fun x hx => List.mem_reverse.mp hx)
            hD2 with
          hspin | ⟨R, S, sH, hRS, hwalk, hSpec, hSin⟩
        · rw [hspin] at heq
          simp at heq
        · rw [hwalk] at heq
          dsimp only at heq
          have hD1 : headHashIs sha c1.reverse
              (hs1.getLastD GENESIS_BLOCK_PREV) :=
            chainHashes_last_headHash sha c1 hs1 hch1
          cases hSc : S with
          | nil =>
            subst hSc
            have hsH : sH = GENESIS_BLOCK_PREV := hSpec
            have hReq : R = c2.reverse := by simpa using hRS.symm
            rcases walkOld_characterize sha c1 hs1 (c1 ++ c2) hch1 hdis hgen
                hsub1 sH c1.reverse [] (hs1.getLastD GENESIS_BLOCK_PREV) fuel
                (by simpa using hl1)
                (by
                  intro x hx
                  exact List.mem_reverse.mp (by simpa using hx))
                (by simpa using hD1)
                (by
                  show headHashIs sha [] sH
                  exact hsH)
                (by
                  intro r hr hre
                  rw [hsH] at hre
                  exact hgen r (hsub1 r (List.mem_reverse.mp hr)) hre) with
              hospin | hostop
            · rw [hospin] at heq
              simp at heq
            · rw [hostop] at heq
              dsimp only at heq
              have hgate : ¬ (c1.reverse).length < R.length := by
                have l1 : R.length = c2.length := by rw [hReq]; simp
                have l2 : (c1.reverse).length = c1.length := by simp
                omega
              rw [if_neg hgate] at heq
              injection heq with h1 _ _ _
              cases h1
              rfl
          | cons s0 S' =>
            have hsHin : sH ∈ hs1 := hSin (by rw [hSc]; simp)
            have hlen1 : hs1.length = c1.length :=
              (chainHashes_spec sha c1 hs1 hch1).1
            obtain ⟨b1, hb1z⟩ := mem_zip_left hs1 c1 hlen1 sH hsHin
            have hb1hash : b1.get_block_hash sha = some sH :=
              (chainHashes_spec sha c1 hs1 hch1).2 (sH, b1) hb1z
            have hb1c1 : b1 ∈ c1 := (List.of_mem_zip hb1z).2
            obtain ⟨R1, T1, hsplit⟩ :=
              List.append_of_mem (List.mem_reverse.mpr hb1c1)
            have hnodup : (c1.reverse).Nodup := by
              refine revLinked_nodup sha (c1 ++ c2) hdis hgen c1.reverse hl1
                (fun x hx => hsub1 x (List.mem_reverse.mp hx)) ?_
              intro x hx
              obtain ⟨hx0, hxh, _⟩ := chainHashes_mem_zip sha c1 hs1 hch1 x
                (List.mem_reverse.mp hx)
              exact ⟨hx0, hxh⟩
            have hnotR1 : ∀ r ∈ R1, r.get_block_hash sha ≠ some sH := by
              intro r hr hre
              have hrb1 : r = b1 := by
                refine hdis r (hsub1 r (List.mem_reverse.mp ?_)) b1
                  (hsub1 b1 hb1c1) (by rw [hre, hb1hash])
                rw [hsplit]
                exact List.mem_append_left _ hr
              have hdisj := List.nodup_append.mp (hsplit ▸ hnodup)
              exact hdisj.2.2 (hrb1 ▸ hr) (List.mem_cons_self b1 T1)
            rcases walkOld_characterize sha c1 hs1 (c1 ++ c2) hch1 hdis hgen
                hsub1 sH R1 (b1 :: T1) (hs1.getLastD GENESIS_BLOCK_PREV) fuel
                (hsplit ▸ hl1)
                (by
                  intro x hx
                  refine List.mem_reverse.mp ?_
                  rw [hsplit]
                  exact hx)
                (hsplit ▸ hD1)
                (by
                  show headHashIs sha (b1 :: T1) sH
                  exact hb1hash)
                hnotR1 with
              hospin | hostop
            · rw [hospin] at heq
              simp at heq
            · rw [hostop] at heq
              dsimp only at heq
              have hSeq : S = b1 :: T1 := by
                refine revChain_unique sha (c1 ++ c2) hdis hgen S (b1 :: T1)
                  sH ?_ ?_ ?_ ?_ hSpec (by show headHashIs sha (b1 :: T1) sH; exact hb1hash)
                · exact revLinked_suffix sha R S (hRS ▸ hl2)
                · exact revLinked_suffix sha R1 (b1 :: T1) (hsplit ▸ hl1)
                · intro x hx
                  refine hsub2 x (List.mem_reverse.mp ?_)
                  rw [hRS]
                  exact List.mem_append_right R hx
                · intro x hx
                  refine hsub1 x (List.mem_reverse.mp ?_)
                  rw [hsplit]
                  exact List.mem_append_right R1 hx
              have hgate : ¬ R1.length < R.length := by
                have e1 := congrArg List.length hRS
                have e2 := congrArg List.length hsplit
                have e3 := congrArg List.length hSeq
                simp only [List.length_reverse, List.length_append,
                  List.length_cons] at e1 e2 e3
                omega
              rw [if_neg hgate] at heq
              injection heq with h1 _ _ _
              cases h1
              rfl

/-- Whenever notify_of_block commits, the internal computation passed both
gates: the fetched candidate branch was strictly longer than the local
branch back to the split point, and the validated prefix count is nonzero
and strictly exceeds the old branch length. -/
theorem notify_commit_gates
    (sha : Bytes → Bytes) (ver : Bytes → Bytes → Bytes → Bool) (fuel : Nat)
    (st : NodeState) (h : Bytes) (fetch : Bytes → Option Block)
    (st' : NodeState) (raised : Bool) (ts : List NotifyTarget)
    (heq : notify_of_block sha ver fuel st h fetch = .done st' raised true ts) :
    ∃ hs newB currH oldB copyU k u m,
      chainHashes sha st.blockchain = some hs ∧
      walkNewBranch fetch hs fuel h = .stop newB currH ∧
      walkOldBranch st.blockchain hs fuel (hs.getLastD GENESIS_BLOCK_PREV)
        currH = .stopO oldB ∧
      revertBranch sha st.txs_map oldB.reverse st.utxo = some copyU ∧
      checkBranch sha ver newB.reverse copyU st.txs_map = (k, u, m, false) ∧
      newB.length > oldB.length ∧ k ≠ 0 ∧ k > oldB.length := by
  unfold notify_of_block at heq
  by_cases hg : h = GENESIS_BLOCK_PREV
  · rw [if_pos hg] at heq
    injection heq with _ _ h3 _
    exact Bool.noConfusion h3
  rw [if_neg hg] at heq
  rcases hch : chainHashes sha st.blockchain with _ | hs <;>
    rw [hch] at heq <;> dsimp only at heq
  · injection heq with _ _ h3 _
    exact Bool.noConfusion h3
  by_cases hm : h ∈ hs
  · rw [if_pos hm] at heq
    injection heq with _ _ h3 _
    exact Bool.noConfusion h3
  rw [if_neg hm] at heq
  rcases hf : fetch h with _ | b0 <;> rw [hf] at heq <;> dsimp only at heq
  · injection heq with _ _ h3 _
    exact Bool.noConfusion h3
  rcases hbh : b0.get_block_hash sha with _ | hb <;>
    rw [hbh] at heq <;> dsimp only at heq
  · injection heq with _ _ h3 _
    exact Bool.noConfusion h3
  by_cases hne : hb ≠ h
  · rw [if_pos hne] at heq
    injection heq with _ _ h3 _
    exact Bool.noConfusion h3
  rw [if_neg hne] at heq
  rcases hw : walkNewBranch fetch hs fuel h with _ | _ | ⟨newB, currH⟩ <;>
    rw [hw] at heq <;> dsimp only at heq
  · exact absurd heq (by simp)
  · injection heq with _ _ h3 _
    exact Bool.noConfusion h3
  rcases ho : walkOldBranch st.blockchain hs fuel
      (hs.getLastD GENESIS_BLOCK_PREV) currH with _ | _ | oldB <;>
    rw [ho] at heq <;> dsimp only at heq
  · exact absurd heq (by simp)
  · injection heq with _ _ h3 _
    exact Bool.noConfusion h3
  by_cases hlen : oldB.length < newB.length
  case neg =>
    rw [if_neg hlen] at heq
    injection heq with _ _ h3 _
    exact Bool.noConfusion h3
  rw [if_pos hlen] at heq
  rcases hrev : revertBranch sha st.txs_map oldB.reverse st.utxo with
    _ | copyU <;> rw [hrev] at heq <;> dsimp only at heq
  · injection heq with _ _ h3 _
    exact Bool.noConfusion h3
  rcases hcb : checkBranch sha ver newB.reverse copyU st.txs_map with
    ⟨k, u, m, r⟩
  rw [hcb] at heq
  cases r with
  | true =>
    dsimp only at heq
    injection heq with _ _ h3 _
    exact Bool.noConfusion h3
  | false =>
  dsimp only at heq
  by_cases hv : k = 0 ∨ k ≤ oldB.length
  · rw [if_pos hv] at heq
    injection heq with _ _ h3 _
    exact Bool.noConfusion h3
  refine ⟨hs, newB, currH, oldB, copyU, k, u, m, rfl, hw, ho, hrev, hcb,
    hlen, ?_, ?_⟩ <;> omega

/-- C4: adoption happens only under strict length improvement.  First
conjunct: every commit of notify_of_block passed both gates — the
candidate branch strictly longer than the old branch, and the validated
prefix count nonzero and strictly above the old branch length.  Second
conjunct: two nodes holding equal-length well-formed but divergent chains
do not swap — a notification of the peer's tip leaves the receiver's
chain unchanged (under the standing collision-freedom assumptions on the
block hashes of the two chains). -/
theorem c4_strict_length_improvement :
    (∀ (sha : Bytes → Bytes) (ver : Bytes → Bytes → Bytes → Bool)
      (fuel : Nat) (st : NodeState) (h : Bytes) (fetch : Bytes → Option Block)
      (st' : NodeState) (raised : Bool) (ts : List NotifyTarget),
      notify_of_block sha ver fuel st h fetch = .done st' raised true ts →
      ∃ hs newB currH oldB copyU k u m,
        chainHashes sha st.blockchain = some hs ∧
        walkNewBranch fetch hs fuel h = .stop newB currH ∧
        walkOldBranch st.blockchain hs fuel (hs.getLastD GENESIS_BLOCK_PREV)
          currH = .stopO oldB ∧
        revertBranch sha st.txs_map oldB.reverse st.utxo = some copyU ∧
        checkBranch sha ver newB.reverse copyU st.txs_map = (k, u, m, false) ∧
        newB.length > oldB.length ∧ k ≠ 0 ∧ k > oldB.length) ∧
    (∀ (sha : Bytes → Bytes) (ver : Bytes → Bytes → Bytes → Bool)
      (st : NodeState) (c1 c2 : List Block) (hs1 hs2 : List Bytes) (h : Bytes),
      st.blockchain = c1 →
      chainHashes sha c1 = some hs1 →
      chainHashes sha c2 = some hs2 →
      revLinked sha c1.reverse →
      revLinked sha c2.reverse →
      HashesDistinct sha (c1 ++ c2) →
      NoGenesisHash sha (c1 ++ c2) →
      c1.length = c2.length →
      get_latest_hash sha c2 = some h →
      ∀ (fuel : Nat) (st' : NodeState) (raised committed : Bool)
        (ts : List NotifyTarget),
        notify_of_block sha ver fuel st h (get_block sha c2)
          = .done st' raised committed ts →
        st'.blockchain = st.blockchain) :=
  ⟨fun sha ver fuel st h fetch st' raised ts heq =>
    notify_commit_gates sha ver fuel st h fetch st' raised ts heq,
   fun sha ver st c1 c2 hs1 hs2 h hbc hch1 hch2 hl1 hl2 hdis hgen hlen htip =>
    notify_tie_preserved sha ver st c1 c2 hs1 hs2 h hbc hch1 hch2 hl1 hl2
      hdis hgen hlen htip⟩

/-- Witness for C4: the gates of a concrete committed reorg, and the
unchanged chain of a concrete equal-length tie. -/
theorem c4_strict_length_improvement_witness :
    (∃ hs newB currH oldB copyU k u m,
      chainHashes idsha st1conn.blockchain = some hs ∧
      walkNewBranch fetchEmptyBlock hs 5 emptyBlockHash = .stop newB currH ∧
      walkOldBranch st1conn.blockchain hs 5 (hs.getLastD GENESIS_BLOCK_PREV)
        currH = .stopO oldB ∧
      revertBranch idsha st1conn.txs_map oldB.reverse st1conn.utxo
        = some copyU ∧
      checkBranch idsha tver newB.reverse copyU st1conn.txs_map
        = (k, u, m, false) ∧
      newB.length > oldB.length ∧ k ≠ 0 ∧ k > oldB.length) ∧
    tieNodeA.blockchain = tieNodeA.blockchain := by
  constructor
  · exact c4_strict_length_improvement.1 idsha tver 5 st1conn emptyBlockHash
      fetchEmptyBlock st1connAfter false [.selfTarget] (by decide)
  · exact c4_strict_length_improvement.2 idsha tver tieNodeA [tieBlockA]
      [tieBlockB] [tieHashA] [tieHashB] tieHashB rfl (by decide) (by decide)
      (by exact rfl) (by exact rfl) (by unfold HashesDistinct; decide)
      (by unfold NoGenesisHash; decide) rfl (by decide)
      5 tieNodeA false false [] (by decide)

end LCP
